import Mathlib

/-!
# Verification of the walrus-go streaming content-encryption subsystem

Shallow embedding of the `encryption` package: the PKCS7 padding codec,
the CBC streaming engine (`cbcEncryptReader` / `cbcDecryptReader`), the
AEAD/GCM engines (single-shot and chunked variants), and the cipher-suite
factory.  Bytes are modelled as `List Nat` (each entry a byte value), the
AES block function and the GCM seal/open primitives are abstract
parameters (they live in Go's standard library, outside this repository),
and Go panics are modelled as `Option.none` results.
-/

namespace WalrusGo

/-- A byte string, one `Nat` per byte. -/
abbrev Bytes := List Nat

/-! ## PKCS7 padding codec (src/encryption/aes_cbc.go, PKCS7Padder) -/

/-- `PKCS7Padder.Pad`: `padding := blockSize - (size % blockSize)`;
append `padding` copies of the byte `byte(padding)` (Go byte conversion
truncates mod 256).  The input slice contents are ignored except for being
the prefix of the result; only the running total `size` determines the pad. -/
def pkcs7Pad (blockSize : Nat) (data : Bytes) (size : Nat) : Bytes :=
  let padding := blockSize - size % blockSize
  data ++ List.replicate padding (padding % 256)

/-- `PKCS7Padder.Unpad`: zero-length input returns an empty result with no
error; otherwise the last byte is read as the padding count and that many
trailing bytes are removed via `data[:length-padding]`.  When the count
exceeds the length the Go slice expression has a negative bound and the
program panics, modelled as `none`. -/
def pkcs7Unpad (data : Bytes) : Option Bytes :=
  if data.length = 0 then
    some []
  else
    let padding := data.getLastD 0
    if padding > data.length then
      none
    else
      some (data.take (data.length - padding))

/-! ## Cipher-suite factory (ContentCipher interface file, cipher.go) -/

/-- `CipherSuite` is a Go string type; `AES256GCM = "AES256GCM"`,
`AES256CBC = "AES256CBC"`. -/
abbrev CipherSuite := String

def AES256GCM : CipherSuite := "AES256GCM"

def AES256CBC : CipherSuite := "AES256CBC"

/-- The `cbcCipher` value built by `NewCBCCipher`: it stores the raw key
and IV; the block cipher itself is derived later inside the stream calls. -/
structure cbcCipher where
  key : Bytes
  iv : Bytes
deriving DecidableEq, Repr

/-- The `gcmContentCipher` value: raw key plus the AEAD handle.  `gcmInit`
models whether the `gcm cipher.AEAD` field is non-nil. -/
structure gcmContentCipher where
  key : Bytes
  gcmInit : Bool
deriving DecidableEq, Repr

/-- `NewCBCCipher`: nil key and nil IV are reported first (a nil Go slice
is modelled as the empty list, which the later length switches would
reject with the same messages), then the key length must be 16/24/32 and
the IV length must equal the AES block size 16. -/
def NewCBCCipher (key iv : Bytes) : Except String cbcCipher :=
  if key.length = 0 then .error "invalid key size"
  else if iv.length = 0 then .error "IV length must equal block size"
  else if key.length = 16 ∨ key.length = 24 ∨ key.length = 32 then
    if iv.length = 16 then .ok ⟨key, iv⟩
    else .error "IV length must equal block size"
  else .error "invalid key size"

/-- `NewGCMContentCipher`: nil key rejected, then key length must be
16/24/32; on success both the key and the initialized GCM handle are
stored. -/
def NewGCMContentCipher (key : Bytes) : Except String gcmContentCipher :=
  if key.length = 0 then .error "key cannot be nil"
  else if key.length = 16 ∨ key.length = 24 ∨ key.length = 32 then
    .ok ⟨key, true⟩
  else .error ("invalid key size: " ++ toString key.length)

/-- `NewGCMCipher`: returns `&gcmContentCipher{key: key}` with a nil `gcm`
field and a nil error, for every key, with no validation at all. -/
def NewGCMCipher (key : Bytes) : Except String gcmContentCipher :=
  .ok ⟨key, false⟩

/-- The engine returned by `NewCipher`, a tagged union over the two
concrete engine types. -/
inductive ContentCipher where
  | gcm (c : gcmContentCipher)
  | cbc (c : cbcCipher)
deriving DecidableEq, Repr

/-- `NewCipher`: dispatch on the suite; any other suite value returns the
fixed error value `ErrUnsupportedCipherSuite`. -/
def NewCipher (suite : CipherSuite) (key iv : Bytes) :
    Except String ContentCipher :=
  if suite = AES256GCM then ContentCipher.gcm <$> NewGCMContentCipher key
  else if suite = AES256CBC then ContentCipher.cbc <$> NewCBCCipher key iv
  else .error "unsupported cipher suite"

/-! ## Claims C5, C6, C7 about the padding codec and the factory -/

/-- **C5**: for every input `data` and running total `size`,
`PKCS7Padder.Pad` appends exactly `padding = blockSize - size % blockSize`
bytes, each holding the value `padding`; when `size % blockSize = 0`
(including the empty plaintext) a full extra block of padding is appended.
Stated for block sizes below 256 (the repository always uses 16), where
the Go `byte(padding)` conversion is the identity. -/
theorem C5_pad_appends_padding_bytes (blockSize : Nat) (data : Bytes)
    (size : Nat) (_hpos : 0 < blockSize) (hlt : blockSize < 256) :
    pkcs7Pad blockSize data size =
      data ++ List.replicate (blockSize - size % blockSize)
        (blockSize - size % blockSize) ∧
    (size % blockSize = 0 →
      pkcs7Pad blockSize data size =
        data ++ List.replicate blockSize blockSize) := by
  have hle : blockSize - size % blockSize ≤ blockSize := Nat.sub_le _ _
  have hmod : (blockSize - size % blockSize) % 256 =
      blockSize - size % blockSize :=
    Nat.mod_eq_of_lt (Nat.lt_of_le_of_lt hle hlt)
  constructor
  · simp [pkcs7Pad, hmod]
  · intro h0
    simp only [pkcs7Pad, h0, Nat.sub_zero]
    rw [Nat.mod_eq_of_lt hlt]

theorem C5_pad_appends_padding_bytes_witness :
    pkcs7Pad 16 [1, 2, 3] 3 =
      [1, 2, 3] ++ List.replicate (16 - 3 % 16) (16 - 3 % 16) ∧
    pkcs7Pad 16 [] 0 = [] ++ List.replicate 16 16 :=
  ⟨(C5_pad_appends_padding_bytes 16 [1, 2, 3] 3 (by decide) (by decide)).1,
   (C5_pad_appends_padding_bytes 16 [] 0 (by decide) (by decide)).2 (by decide)⟩

/-- **C6 counterexample**: the claim says `Unpad` returns the input with
the trailing `k` bytes removed for *every* non-empty input; for the input
`[2]` (length 1, pad count 2) that would be the empty result, but the code
panics on the negative slice bound instead. -/
theorem C6_counterexample :
    ¬ pkcs7Unpad [2] = some (List.take ([2].length - 2) [2]) := by
  decide

/-- **C6 (amended)**: for every non-empty input whose last byte `k` does
not exceed the input length, `Unpad` returns the input with the trailing
`k` bytes removed, performing no validation of the removed bytes; when `k`
exceeds the length it panics instead (modelled `none`); the zero-length
input yields an empty result and no error. -/
theorem C6_unpad_strips_last_byte_count (data : Bytes) (hne : data ≠ []) :
    (data.getLastD 0 ≤ data.length →
      pkcs7Unpad data = some (data.take (data.length - data.getLastD 0))) ∧
    (data.length < data.getLastD 0 → pkcs7Unpad data = none) ∧
    pkcs7Unpad [] = some [] := by
  have hlen : data.length ≠ 0 := by simpa using hne
  refine ⟨fun hle => ?_, fun hgt => ?_, rfl⟩
  · simp only [pkcs7Unpad]
    rw [if_neg hlen, if_neg (by omega)]
  · simp only [pkcs7Unpad]
    rw [if_neg hlen, if_pos (by omega)]

theorem C6_unpad_strips_last_byte_count_witness :
    pkcs7Unpad [10, 20, 2] = some ([10, 20, 2].take (3 - 2)) ∧
    pkcs7Unpad [10, 7] = none :=
  ⟨((C6_unpad_strips_last_byte_count [10, 20, 2] (by decide)).1 (by decide)),
   ((C6_unpad_strips_last_byte_count [10, 7] (by decide)).2.1 (by decide))⟩

/-- **C7 counterexample**: the claim says the "unsupported suite" error
carries the rejected suite value for diagnostics; but two different
rejected suites produce the very same error value
(`ErrUnsupportedCipherSuite` is a fixed error), so the error cannot carry
the rejected value. -/
theorem C7_counterexample :
    NewCipher "SUITE-A" [] [] = NewCipher "SUITE-B" [] [] ∧
    NewCipher "SUITE-A" [] [] = .error "unsupported cipher suite" := by
  constructor <;> rfl

/-- **C7 (amended)**: for every suite value other than `AES256GCM` and
`AES256CBC`, `NewCipher` fails with the fixed error
`"unsupported cipher suite"`, which does not include the rejected suite
value. -/
theorem C7_unsupported_suite_error (suite : CipherSuite) (key iv : Bytes)
    (hg : suite ≠ AES256GCM) (hc : suite ≠ AES256CBC) :
    NewCipher suite key iv = .error "unsupported cipher suite" := by
  simp [NewCipher, hg, hc]

theorem C7_unsupported_suite_error_witness :
    NewCipher "CHACHA20" [1] [2] = .error "unsupported cipher suite" :=
  C7_unsupported_suite_error "CHACHA20" [1] [2] (by decide) (by decide)

/-- **C4**: every key whose length is not 16/24/32 is rejected by
`NewCBCCipher`, `NewGCMContentCipher` and `NewCipher` (for both supported
suites) with a configuration error, and every CBC IV whose length is not
the 16-byte block size is likewise rejected by `NewCBCCipher` and
`NewCipher AES256CBC`; the constructors never read the source, so such
inputs never fail mid-stream. -/
theorem C4_construction_rejects_bad_key_and_iv (key iv : Bytes)
    (hk : ¬ (key.length = 16 ∨ key.length = 24 ∨ key.length = 32)) :
    (∃ e, NewCBCCipher key iv = .error e) ∧
    (∃ e, NewGCMContentCipher key = .error e) ∧
    (∃ e, NewCipher AES256GCM key iv = .error e) ∧
    (∃ e, NewCipher AES256CBC key iv = .error e) ∧
    (∀ key2 iv2 : Bytes, iv2.length ≠ 16 →
      (∃ e, NewCBCCipher key2 iv2 = .error e) ∧
      (∃ e, NewCipher AES256CBC key2 iv2 = .error e)) := by
  have hcbc : ∀ k i : Bytes,
      ¬ (k.length = 16 ∨ k.length = 24 ∨ k.length = 32) →
      ∃ e, NewCBCCipher k i = .error e := by
    intro k i hbad
    by_cases h0 : k.length = 0
    · exact ⟨"invalid key size", by simp [NewCBCCipher, h0]⟩
    · by_cases hi0 : i.length = 0
      · exact ⟨"IV length must equal block size",
          by simp [NewCBCCipher, h0, hi0]⟩
      · exact ⟨"invalid key size", by simp [NewCBCCipher, h0, hi0, hbad]⟩
  have hgcm : ∃ e, NewGCMContentCipher key = .error e := by
    by_cases h0 : key.length = 0
    · exact ⟨"key cannot be nil", by simp [NewGCMContentCipher, h0]⟩
    · exact ⟨"invalid key size: " ++ toString key.length,
        by simp [NewGCMContentCipher, h0, hk]⟩
  have hcbciv : ∀ k i : Bytes, i.length ≠ 16 →
      ∃ e, NewCBCCipher k i = .error e := by
    intro k i hbad
    by_cases h0 : k.length = 0
    · exact ⟨"invalid key size", by simp [NewCBCCipher, h0]⟩
    · by_cases hi0 : i.length = 0
      · exact ⟨"IV length must equal block size",
          by simp [NewCBCCipher, h0, hi0]⟩
      · by_cases hkk : k.length = 16 ∨ k.length = 24 ∨ k.length = 32
        · exact ⟨"IV length must equal block size",
            by simp [NewCBCCipher, h0, hi0, hkk, hbad]⟩
        · exact ⟨"invalid key size", by simp [NewCBCCipher, h0, hi0, hkk]⟩
  refine ⟨hcbc key iv hk, hgcm, ?_, ?_, ?_⟩
  · obtain ⟨e, he⟩ := hgcm
    exact ⟨e, by simp [NewCipher, AES256GCM, he]⟩
  · obtain ⟨e, he⟩ := hcbc key iv hk
    exact ⟨e, by simp [NewCipher, AES256CBC, AES256GCM, he]⟩
  · intro k2 i2 hbad
    obtain ⟨e, he⟩ := hcbciv k2 i2 hbad
    exact ⟨⟨e, he⟩, ⟨e, by simp [NewCipher, AES256CBC, AES256GCM, he]⟩⟩

theorem C4_construction_rejects_bad_key_and_iv_witness :
    (∃ e, NewCBCCipher (List.replicate 15 0) (List.replicate 16 0) =
      .error e) ∧
    (∃ e, NewGCMContentCipher (List.replicate 15 0) = .error e) ∧
    (∃ e, NewCipher AES256GCM (List.replicate 15 0) (List.replicate 16 0) =
      .error e) ∧
    (∃ e, NewCipher AES256CBC (List.replicate 15 0) (List.replicate 16 0) =
      .error e) ∧
    (∀ key2 iv2 : Bytes, iv2.length ≠ 16 →
      (∃ e, NewCBCCipher key2 iv2 = .error e) ∧
      (∃ e, NewCipher AES256CBC key2 iv2 = .error e)) :=
  C4_construction_rejects_bad_key_and_iv (List.replicate 15 0)
    (List.replicate 16 0) (by decide)

/-! ## Byte-stream chunking

`bytes.Reader` delivers successive reads of at most the destination
buffer's size (`io.Copy` uses 32 KiB; the chunked GCM decryptor uses
32 KiB + overhead), followed by a final `(0, io.EOF)` read.  `chunksOf k
src` is the list of chunks such a reader delivers.  The fuel argument just
bounds the recursion; `src.length` is always enough. -/

def chunksOfF (k : Nat) : Nat → Bytes → List Bytes
  | 0, l => if l = [] then [] else [l]
  | fuel + 1, l =>
    if l = [] then [] else l.take k :: chunksOfF k fuel (l.drop k)

def chunksOf (k : Nat) (l : Bytes) : List Bytes := chunksOfF k l.length l

theorem chunksOfF_fuel (k : Nat) (hk : 0 < k) :
    ∀ f1 f2 l, l.length ≤ f1 → l.length ≤ f2 →
      chunksOfF k f1 l = chunksOfF k f2 l := by
  intro f1
  induction f1 with
  | zero =>
    intro f2 l h1 _
    have hl : l = [] := List.eq_nil_of_length_eq_zero (Nat.le_zero.mp h1)
    subst hl
    cases f2 <;> simp [chunksOfF]
  | succ g ih =>
    intro f2 l h1 h2
    by_cases hl : l = []
    · subst hl
      cases f2 <;> simp [chunksOfF]
    · have hpos : 0 < l.length := List.length_pos.mpr hl
      cases f2 with
      | zero => omega
      | succ h =>
        simp only [chunksOfF, if_neg hl]
        have hd1 : (l.drop k).length ≤ g := by
          simp only [List.length_drop]; omega
        have hd2 : (l.drop k).length ≤ h := by
          simp only [List.length_drop]; omega
        rw [ih _ _ hd1 hd2]

theorem chunksOf_nil (k : Nat) : chunksOf k [] = [] := rfl

theorem chunksOf_cons (k : Nat) (hk : 0 < k) (l : Bytes) (hl : l ≠ []) :
    chunksOf k l = l.take k :: chunksOf k (l.drop k) := by
  have hpos : 0 < l.length := List.length_pos.mpr hl
  unfold chunksOf
  cases hlen : l.length with
  | zero => omega
  | succ m =>
    simp only [chunksOfF, if_neg hl]
    have hd : (l.drop k).length ≤ m := by
      simp only [List.length_drop]; omega
    rw [chunksOfF_fuel k hk m (l.drop k).length _ hd le_rfl]

theorem chunksOfF_flatten (k : Nat) (hk : 0 < k) :
    ∀ fuel l, l.length ≤ fuel → (chunksOfF k fuel l).flatten = l := by
  intro fuel
  induction fuel with
  | zero =>
    intro l h1
    have hl : l = [] := List.eq_nil_of_length_eq_zero (Nat.le_zero.mp h1)
    subst hl; rfl
  | succ g ih =>
    intro l h1
    by_cases hl : l = []
    · subst hl; rfl
    · have hpos : 0 < l.length := List.length_pos.mpr hl
      simp only [chunksOfF, if_neg hl, List.flatten_cons]
      have hd : (l.drop k).length ≤ g := by
        simp only [List.length_drop]; omega
      rw [ih _ hd, List.take_append_drop]

theorem chunksOf_flatten (k : Nat) (hk : 0 < k) (l : Bytes) :
    (chunksOf k l).flatten = l :=
  chunksOfF_flatten k hk l.length l le_rfl

theorem chunksOfF_mem (k : Nat) (hk : 0 < k) :
    ∀ fuel l c, l.length ≤ fuel → c ∈ chunksOfF k fuel l →
      c ≠ [] ∧ c.length ≤ k := by
  intro fuel
  induction fuel with
  | zero =>
    intro l c h1 hc
    have hl : l = [] := List.eq_nil_of_length_eq_zero (Nat.le_zero.mp h1)
    subst hl; simp [chunksOfF] at hc
  | succ g ih =>
    intro l c h1 hc
    by_cases hl : l = []
    · subst hl; simp [chunksOfF] at hc
    · have hpos : 0 < l.length := List.length_pos.mpr hl
      simp only [chunksOfF, if_neg hl, List.mem_cons] at hc
      rcases hc with h | h
      · subst h
        refine ⟨?_, by simp only [List.length_take]; omega⟩
        have : 0 < (l.take k).length := by
          simp only [List.length_take]; omega
        exact List.ne_nil_of_length_pos this
      · have hd : (l.drop k).length ≤ g := by
          simp only [List.length_drop]; omega
        exact ih _ _ hd h

theorem chunksOf_mem (k : Nat) (hk : 0 < k) (l c : Bytes)
    (hc : c ∈ chunksOf k l) : c ≠ [] ∧ c.length ≤ k :=
  chunksOfF_mem k hk l.length l c le_rfl hc

theorem chunksOfF_mem_dvd (k d : Nat) (hk : 0 < k) (hdk : d ∣ k) :
    ∀ fuel l c, l.length ≤ fuel → d ∣ l.length →
      c ∈ chunksOfF k fuel l → d ∣ c.length := by
  intro fuel
  induction fuel with
  | zero =>
    intro l c h1 _ hc
    have hl : l = [] := List.eq_nil_of_length_eq_zero (Nat.le_zero.mp h1)
    subst hl; simp [chunksOfF] at hc
  | succ g ih =>
    intro l c h1 hdl hc
    by_cases hl : l = []
    · subst hl; simp [chunksOfF] at hc
    · simp only [chunksOfF, if_neg hl, List.mem_cons] at hc
      rcases hc with h | h
      · subst h
        simp only [List.length_take]
        rcases Nat.le_total k l.length with hle | hle
        · rw [min_eq_left hle]; exact hdk
        · rw [min_eq_right hle]; exact hdl
      · have hd : (l.drop k).length ≤ g := by
          simp only [List.length_drop]
          have hpos : 0 < l.length := List.length_pos.mpr hl
          omega
        have hdd : d ∣ (l.drop k).length := by
          simp only [List.length_drop]
          exact Nat.dvd_sub' hdl hdk
        exact ih _ _ hd hdd h

theorem chunksOf_mem_dvd (k d : Nat) (hk : 0 < k) (hdk : d ∣ k)
    (l c : Bytes) (hdl : d ∣ l.length) (hc : c ∈ chunksOf k l) :
    d ∣ c.length :=
  chunksOfF_mem_dvd k d hk hdk l.length l c le_rfl hdl hc

/-! ## AEAD/GCM engines

The GCM primitive itself lives in Go's standard `crypto/cipher` package,
outside this repository, so `sealF` (`gcm.Seal(nil, nonce, chunk, nil)`)
and `gcmOpen` (`gcm.Open(nil, nonce, chunk, nil)`, `none` on
authentication failure) are abstract parameters.  `NonceSize` is 12 and
`Overhead` is 16, the standard GCM values.  The nonce produced by
`rand.Read` is passed as an explicit argument. -/

/-- `gcmContentCipher.EncryptStream` (single-shot form, aes_gcm.go): nil
check on the `gcm` field, write the nonce, `io.ReadAll` the source, then
write one sealed unit. -/
def gcmEncryptStream (sealF : Bytes → Bytes → Bytes) (c : gcmContentCipher)
    (nonce : Bytes) (src : Bytes) : Except String Bytes :=
  if c.gcmInit = false then .error "gcm cipher is not initialized"
  else .ok (nonce ++ sealF nonce src)

/-- `gcmContentCipher.DecryptStream` (single-shot form, aes_gcm.go): no
nil check — `c.gcm.NonceSize()` dereferences the nil AEAD (modelled
`none` = panic); otherwise read a 12-byte nonce (`io.ReadFull` fails on a
shorter stream), `io.ReadAll` the rest, and open it in one call,
propagating an authentication failure as an error with no output. -/
def gcmDecryptStream (gcmOpen : Bytes → Bytes → Option Bytes)
    (c : gcmContentCipher) (src : Bytes) : Option (Except String Bytes) :=
  if c.gcmInit = false then none
  else if src.length < 12 then some (.error "failed to read nonce")
  else
    match gcmOpen (src.take 12) (src.drop 12) with
    | none => some (.error "message authentication failed")
    | some p => some (.ok p)

/-- The chunked `gcmContentCipher.EncryptStream` variant: the source is
read in 32 KiB chunks and each chunk is sealed with the *same* `nonce`
generated once per call.  The result also records the list of
`(nonce, chunk)` arguments of the successive `Seal` invocations. -/
def gcmChunkedEncLoop (sealF : Bytes → Bytes → Bytes) (nonce : Bytes) :
    List Bytes → Bytes × List (Bytes × Bytes)
  | [] => ([], [])
  | ch :: rest =>
    let ct := sealF nonce ch
    let r := gcmChunkedEncLoop sealF nonce rest
    (ct ++ r.1, (nonce, ch) :: r.2)

/-- Output of the chunked `EncryptStream`: nonce, then the concatenated
sealed chunks. -/
def gcmChunkedEncryptStream (sealF : Bytes → Bytes → Bytes)
    (c : gcmContentCipher) (nonce : Bytes) (src : Bytes) :
    Except String Bytes :=
  if c.gcmInit = false then .error "gcm cipher is not initialized"
  else .ok (nonce ++ (gcmChunkedEncLoop sealF nonce (chunksOf 32768 src)).1)

/-- The nonces of the successive `Seal` calls of one chunked
`EncryptStream` call. -/
def gcmChunkedSealNonces (sealF : Bytes → Bytes → Bytes) (nonce : Bytes)
    (src : Bytes) : List Bytes :=
  ((gcmChunkedEncLoop sealF nonce (chunksOf 32768 src)).2).map Prod.fst

/-- `gcmEncryptReader.Read` seal-call trace (the other chunked variant):
the reader accumulates source bytes in `r.buf`, seals a 32 KiB chunk with
the one stored `r.nonce` whenever the buffer is full, and seals the whole
remaining buffer at EOF.  Listed are the `(nonce, plaintext)` arguments of
the successive `r.gcm.Seal` calls. -/
def gcmEncryptReaderSeals (nonce : Bytes) :
    List Bytes → Bytes → List (Bytes × Bytes)
  | [], buf => if buf.length > 0 then [(nonce, buf)] else []
  | c :: rest, buf =>
    let buf2 := buf ++ c
    if buf2.length ≥ 32768 then
      (nonce, buf2.take 32768) ::
        gcmEncryptReaderSeals nonce rest (buf2.drop 32768)
    else
      gcmEncryptReaderSeals nonce rest buf2

theorem gcmChunkedEncLoop_nonces (sealF : Bytes → Bytes → Bytes)
    (nonce : Bytes) :
    ∀ chunks, ((gcmChunkedEncLoop sealF nonce chunks).2).map Prod.fst =
      List.replicate chunks.length nonce := by
  intro chunks
  induction chunks with
  | nil => rfl
  | cons c rest ih =>
    simp only [gcmChunkedEncLoop, List.map_cons, List.length_cons,
      List.replicate_succ, ih]

theorem gcmEncryptReaderSeals_nonces (nonce : Bytes) :
    ∀ chunks buf, ∀ x ∈ gcmEncryptReaderSeals nonce chunks buf,
      x.1 = nonce := by
  intro chunks
  induction chunks with
  | nil =>
    intro buf x hx
    simp only [gcmEncryptReaderSeals] at hx
    by_cases h : buf.length > 0
    · rw [if_pos h] at hx
      rw [List.mem_singleton.mp hx]
    · rw [if_neg h] at hx
      simp at hx
  | cons c rest ih =>
    intro buf x hx
    simp only [gcmEncryptReaderSeals] at hx
    by_cases h : (buf ++ c).length ≥ 32768
    · rw [if_pos h] at hx
      rcases List.mem_cons.mp hx with h2 | h2
      · rw [h2]
      · exact ih _ x h2
    · rw [if_neg h] at hx
      exact ih _ x hx

theorem gcmEncryptReaderSeals_ne_nil (nonce : Bytes) :
    ∀ chunks buf, (∀ c ∈ chunks, c ≠ []) → chunks ≠ [] ∨ buf ≠ [] →
      gcmEncryptReaderSeals nonce chunks buf ≠ [] := by
  intro chunks
  induction chunks with
  | nil =>
    intro buf _ hne
    have hbuf : buf ≠ [] := by
      rcases hne with h | h
      · exact absurd rfl h
      · exact h
    have hpos : buf.length > 0 := List.length_pos.mpr hbuf
    simp [gcmEncryptReaderSeals, hpos]
  | cons c rest ih =>
    intro buf hcs _
    simp only [gcmEncryptReaderSeals]
    by_cases h : (buf ++ c).length ≥ 32768
    · rw [if_pos h]
      exact List.cons_ne_nil _ _
    · rw [if_neg h]
      have hc : c ≠ [] := hcs c (List.mem_cons_self c rest)
      have hbc : (buf ++ c) ≠ [] := by
        intro habs
        exact hc (List.append_eq_nil.mp habs).2
      exact ih _ (fun d hd => hcs d (List.mem_cons_of_mem c hd))
        (Or.inr hbc)

/-! ## Claims C10, C2, C3 -/

/-- **C10**: `NewGCMCipher` performs no key validation (it succeeds for
every key) and leaves the `gcm` field nil; `EncryptStream` of the
resulting engine always fails with "gcm cipher is not initialized"
regardless of the source, and `DecryptStream` dereferences the nil AEAD
and panics. -/
theorem C10_NewGCMCipher_uninitialized (key : Bytes) :
    NewGCMCipher key = .ok ⟨key, false⟩ ∧
    (∀ (sealF : Bytes → Bytes → Bytes) (nonce src : Bytes),
      gcmEncryptStream sealF ⟨key, false⟩ nonce src =
        .error "gcm cipher is not initialized") ∧
    (∀ (gcmOpen : Bytes → Bytes → Option Bytes) (src : Bytes),
      gcmDecryptStream gcmOpen ⟨key, false⟩ src = none) :=
  ⟨rfl, fun _ _ _ => rfl, fun _ _ => rfl⟩

/-- **C2** (`code_bug`): in both chunked AEAD variants every `Seal`
invocation of one `EncryptStream` call uses the *same* base nonce — no
counter is mixed in — so for any source larger than one 32 KiB chunk at
least two chunks are sealed under an identical nonce, contradicting the
required per-chunk nonce uniqueness. -/
theorem C2_chunked_seals_reuse_nonce (sealF : Bytes → Bytes → Bytes)
    (nonce src : Bytes) (hbig : 32768 < src.length) :
    (∃ t, gcmChunkedSealNonces sealF nonce src = nonce :: nonce :: t) ∧
    (∃ x t, gcmEncryptReaderSeals nonce (chunksOf 32768 src) [] =
      x :: t ∧ x.1 = nonce ∧ t ≠ [] ∧ ∀ y ∈ t, y.1 = nonce) := by
  have hk : (0 : Nat) < 32768 := by norm_num
  have hsrc : src ≠ [] := by
    intro h; subst h; simp at hbig
  have hdrop : src.drop 32768 ≠ [] := by
    intro h
    have h2 : (src.drop 32768).length = src.length - 32768 :=
      List.length_drop _ _
    rw [h] at h2
    simp only [List.length_nil] at h2
    omega
  have hchunks : chunksOf 32768 src =
      src.take 32768 :: chunksOf 32768 (src.drop 32768) :=
    chunksOf_cons 32768 hk src hsrc
  have hchunks2 : chunksOf 32768 (src.drop 32768) =
      (src.drop 32768).take 32768 ::
        chunksOf 32768 ((src.drop 32768).drop 32768) :=
    chunksOf_cons 32768 hk _ hdrop
  constructor
  · refine ⟨List.replicate
      (chunksOf 32768 ((src.drop 32768).drop 32768)).length nonce, ?_⟩
    unfold gcmChunkedSealNonces
    rw [gcmChunkedEncLoop_nonces, hchunks, hchunks2]
    simp [List.replicate_succ]
  · have htake : (src.take 32768).length = 32768 := by
      simp only [List.length_take]
      omega
    rw [hchunks]
    simp only [gcmEncryptReaderSeals, List.nil_append]
    rw [if_pos (by omega : (src.take 32768).length ≥ 32768)]
    refine ⟨(nonce, (src.take 32768).take 32768), _, rfl, rfl, ?_, ?_⟩
    · apply gcmEncryptReaderSeals_ne_nil nonce _ _
        (fun c hc => (chunksOf_mem 32768 hk _ c hc).1)
      left
      rw [hchunks2]
      exact List.cons_ne_nil _ _
    · intro y hy
      exact gcmEncryptReaderSeals_nonces nonce _ _ y hy

theorem C2_chunked_seals_reuse_nonce_witness :
    (∃ t, gcmChunkedSealNonces (fun n p => p ++ n) [7]
      (List.replicate 32769 0) = [7] :: [7] :: t) ∧
    (∃ x t, gcmEncryptReaderSeals [7]
      (chunksOf 32768 (List.replicate 32769 0)) [] =
      x :: t ∧ x.1 = [7] ∧ t ≠ [] ∧ ∀ y ∈ t, y.1 = [7]) :=
  C2_chunked_seals_reuse_nonce (fun n p => p ++ n) [7]
    (List.replicate 32769 0) (by rw [List.length_replicate]; norm_num)

/-- The read loop of the chunked `gcmContentCipher.DecryptStream`: each
source read delivers one chunk of up to `32*1024 + c.gcm.Overhead()` =
32784 bytes, each chunk is opened with the one nonce read from the
header, an authentication failure aborts the call immediately (chunks
already opened were written to the sink before it), and EOF ends the
loop. -/
def gcmChunkedDecLoop (gcmOpen : Bytes → Bytes → Option Bytes)
    (nonce : Bytes) : List Bytes → Except String Bytes
  | [] => .ok []
  | ch :: rest =>
    match gcmOpen nonce ch with
    | none => .error "message authentication failed"
    | some p =>
      match gcmChunkedDecLoop gcmOpen nonce rest with
      | .error e => .error e
      | .ok out => .ok (p ++ out)

/-- The chunked `gcmContentCipher.DecryptStream`: no nil check —
`c.gcm.NonceSize()` dereferences the nil AEAD (modelled `none` = panic);
otherwise read the 12-byte nonce, then open the successive 32784-byte
`bytes.Reader` chunks of the remainder. -/
def gcmChunkedDecryptStream (gcmOpen : Bytes → Bytes → Option Bytes)
    (c : gcmContentCipher) (src : Bytes) : Option (Except String Bytes) :=
  if c.gcmInit = false then none
  else if src.length < 12 then some (.error "failed to read nonce")
  else
    some (gcmChunkedDecLoop gcmOpen (src.take 12)
      (chunksOf 32784 (src.drop 12)))

/-- If any chunk of the stream fails to open, the chunked decrypt loop
returns the authentication error (the first failing chunk aborts it). -/
theorem gcmChunkedDecLoop_fails (gcmOpen : Bytes → Bytes → Option Bytes)
    (nonce : Bytes) :
    ∀ chunks : List Bytes, (∃ ch ∈ chunks, gcmOpen nonce ch = none) →
      gcmChunkedDecLoop gcmOpen nonce chunks =
        .error "message authentication failed" := by
  intro chunks
  induction chunks with
  | nil =>
    rintro ⟨ch, hch, _⟩
    simp at hch
  | cons c cs ih =>
    rintro ⟨ch, hch, hopen⟩
    rcases List.mem_cons.mp hch with heq | hmem
    · subst heq
      simp only [gcmChunkedDecLoop, hopen]
    · cases hc : gcmOpen nonce c with
      | none => simp only [gcmChunkedDecLoop, hc]
      | some p =>
        simp only [gcmChunkedDecLoop, hc]
        rw [ih ⟨ch, hmem, hopen⟩]

/-- The bit at position `i` (byte `i / 8`, bit `i % 8`) of a byte string,
flipped. -/
def flipBit (i : Nat) (l : Bytes) : Bytes :=
  l.set (i / 8) (Nat.xor (l.getD (i / 8) 0) (2 ^ (i % 8)))

/-- **C3**: flipping any single bit of the sealed portion of an AEAD
ciphertext produced by `EncryptStream` makes `DecryptStream` fail with the
authentication error, for both the single-shot engine and the chunked
variant — `gcm.Open` rejects the tampered sealed unit it is handed
(hypotheses `hauth` for the single-shot stream and `hauth2` for the
decrypt-side chunk holding the flipped bit, the tamper-detection property
of the external GCM primitive at these inputs) and both engines propagate
that failure, never returning altered plaintext. -/
theorem C3_tampered_ciphertext_fails (sealF : Bytes → Bytes → Bytes)
    (gcmOpen : Bytes → Bytes → Option Bytes) (key nonce P : Bytes)
    (i j : Nat) (hn : nonce.length = 12)
    (hauth : gcmOpen nonce (flipBit i (sealF nonce P)) = none)
    (hauth2 : ∃ ch ∈ chunksOf 32784
        (flipBit j (gcmChunkedEncLoop sealF nonce (chunksOf 32768 P)).1),
      gcmOpen nonce ch = none) :
    gcmEncryptStream sealF ⟨key, true⟩ nonce P =
      .ok (nonce ++ sealF nonce P) ∧
    gcmDecryptStream gcmOpen ⟨key, true⟩
      (nonce ++ flipBit i (sealF nonce P)) =
      some (.error "message authentication failed") ∧
    (∀ q, gcmDecryptStream gcmOpen ⟨key, true⟩
      (nonce ++ flipBit i (sealF nonce P)) ≠ some (.ok q)) ∧
    gcmChunkedEncryptStream sealF ⟨key, true⟩ nonce P =
      .ok (nonce ++ (gcmChunkedEncLoop sealF nonce (chunksOf 32768 P)).1) ∧
    gcmChunkedDecryptStream gcmOpen ⟨key, true⟩
      (nonce ++ flipBit j (gcmChunkedEncLoop sealF nonce
        (chunksOf 32768 P)).1) =
      some (.error "message authentication failed") ∧
    (∀ q, gcmChunkedDecryptStream gcmOpen ⟨key, true⟩
      (nonce ++ flipBit j (gcmChunkedEncLoop sealF nonce
        (chunksOf 32768 P)).1) ≠ some (.ok q)) := by
  have hlen : ¬ (nonce ++ flipBit i (sealF nonce P)).length < 12 := by
    simp only [List.length_append, hn]
    omega
  have htake : (nonce ++ flipBit i (sealF nonce P)).take 12 = nonce := by
    rw [← hn]
    exact List.take_left _ _
  have hdrop : (nonce ++ flipBit i (sealF nonce P)).drop 12 =
      flipBit i (sealF nonce P) := by
    rw [← hn]
    exact List.drop_left _ _
  have hdec : gcmDecryptStream gcmOpen ⟨key, true⟩
      (nonce ++ flipBit i (sealF nonce P)) =
      some (.error "message authentication failed") := by
    unfold gcmDecryptStream
    rw [if_neg (by simp), if_neg hlen, htake, hdrop, hauth]
  have hlen2 : ¬ (nonce ++ flipBit j (gcmChunkedEncLoop sealF nonce
      (chunksOf 32768 P)).1).length < 12 := by
    simp only [List.length_append, hn]
    omega
  have htake2 : (nonce ++ flipBit j (gcmChunkedEncLoop sealF nonce
      (chunksOf 32768 P)).1).take 12 = nonce := by
    rw [← hn]
    exact List.take_left _ _
  have hdrop2 : (nonce ++ flipBit j (gcmChunkedEncLoop sealF nonce
      (chunksOf 32768 P)).1).drop 12 =
      flipBit j (gcmChunkedEncLoop sealF nonce (chunksOf 32768 P)).1 := by
    rw [← hn]
    exact List.drop_left _ _
  have hdec2 : gcmChunkedDecryptStream gcmOpen ⟨key, true⟩
      (nonce ++ flipBit j (gcmChunkedEncLoop sealF nonce
        (chunksOf 32768 P)).1) =
      some (.error "message authentication failed") := by
    unfold gcmChunkedDecryptStream
    rw [if_neg (by simp), if_neg hlen2, htake2, hdrop2]
    rw [gcmChunkedDecLoop_fails gcmOpen nonce _ hauth2]
  refine ⟨rfl, hdec, fun q hq => ?_, rfl, hdec2, fun q hq => ?_⟩
  · rw [hdec] at hq
    simp at hq
  · rw [hdec2] at hq
    simp at hq

/-- A toy AEAD used to instantiate the abstract GCM primitive in
witnesses: the tag is a one-byte checksum of plaintext and nonce, which
any single-bit flip of body or tag invalidates. -/
def toySeal (nonce p : Bytes) : Bytes := p ++ [(p.sum + nonce.sum) % 256]

def toyOpen (nonce c : Bytes) : Option Bytes :=
  if c ≠ [] ∧ c.getLastD 0 = (c.dropLast.sum + nonce.sum) % 256 then
    some c.dropLast
  else none

theorem C3_tampered_ciphertext_fails_witness :
    gcmEncryptStream toySeal ⟨List.replicate 32 0, true⟩
      (List.replicate 12 0) [1, 2, 3] =
      .ok (List.replicate 12 0 ++ toySeal (List.replicate 12 0) [1, 2, 3]) ∧
    gcmDecryptStream toyOpen ⟨List.replicate 32 0, true⟩
      (List.replicate 12 0 ++
        flipBit 0 (toySeal (List.replicate 12 0) [1, 2, 3])) =
      some (.error "message authentication failed") ∧
    (∀ q, gcmDecryptStream toyOpen ⟨List.replicate 32 0, true⟩
      (List.replicate 12 0 ++
        flipBit 0 (toySeal (List.replicate 12 0) [1, 2, 3])) ≠
        some (.ok q)) ∧
    gcmChunkedEncryptStream toySeal ⟨List.replicate 32 0, true⟩
      (List.replicate 12 0) [1, 2, 3] =
      .ok (List.replicate 12 0 ++ (gcmChunkedEncLoop toySeal
        (List.replicate 12 0) (chunksOf 32768 [1, 2, 3])).1) ∧
    gcmChunkedDecryptStream toyOpen ⟨List.replicate 32 0, true⟩
      (List.replicate 12 0 ++ flipBit 0 (gcmChunkedEncLoop toySeal
        (List.replicate 12 0) (chunksOf 32768 [1, 2, 3])).1) =
      some (.error "message authentication failed") ∧
    (∀ q, gcmChunkedDecryptStream toyOpen ⟨List.replicate 32 0, true⟩
      (List.replicate 12 0 ++ flipBit 0 (gcmChunkedEncLoop toySeal
        (List.replicate 12 0) (chunksOf 32768 [1, 2, 3])).1) ≠
        some (.ok q)) :=
  C3_tampered_ciphertext_fails toySeal toyOpen (List.replicate 32 0)
    (List.replicate 12 0) [1, 2, 3] 0 0 (by decide) (by decide)
    (by decide)

/-! ## CBC block operations

The AES block function for a given key lives in Go's `crypto/aes`; it is
an abstract parameter `E` (encryption direction) with inverse `D`
(decryption direction).  `cryptBlocksEnc`/`cryptBlocksDec` model
`cipher.NewCBCEncrypter`/`NewCBCDecrypter`'s `CryptBlocks` on a
block-aligned byte string: each 16-byte block is chained with the running
chaining value (initially the IV), and the final chaining value is the
`BlockMode` state carried into the next `CryptBlocks` call. -/

def xorB (a b : Bytes) : Bytes := List.zipWith (· ^^^ ·) a b

def cryptBlocksEncF (E : Bytes → Bytes) : Nat → Bytes → Bytes → Bytes × Bytes
  | 0, chain, _ => ([], chain)
  | fuel + 1, chain, s =>
    if s = [] then ([], chain)
    else
      let c := E (xorB (s.take 16) chain)
      let r := cryptBlocksEncF E fuel c (s.drop 16)
      (c ++ r.1, r.2)

def cryptBlocksEnc (E : Bytes → Bytes) (chain s : Bytes) : Bytes × Bytes :=
  cryptBlocksEncF E s.length chain s

def cryptBlocksDecF (D : Bytes → Bytes) : Nat → Bytes → Bytes → Bytes × Bytes
  | 0, chain, _ => ([], chain)
  | fuel + 1, chain, s =>
    if s = [] then ([], chain)
    else
      let b := s.take 16
      let p := xorB (D b) chain
      let r := cryptBlocksDecF D fuel b (s.drop 16)
      (p ++ r.1, r.2)

def cryptBlocksDec (D : Bytes → Bytes) (chain s : Bytes) : Bytes × Bytes :=
  cryptBlocksDecF D s.length chain s

theorem cryptBlocksEncF_fuel (E : Bytes → Bytes) :
    ∀ f1 f2 chain s, s.length ≤ f1 → s.length ≤ f2 →
      cryptBlocksEncF E f1 chain s = cryptBlocksEncF E f2 chain s := by
  intro f1
  induction f1 with
  | zero =>
    intro f2 chain s h1 _
    have hs : s = [] := List.eq_nil_of_length_eq_zero (Nat.le_zero.mp h1)
    subst hs
    cases f2 <;> simp [cryptBlocksEncF]
  | succ g ih =>
    intro f2 chain s h1 h2
    by_cases hs : s = []
    · subst hs
      cases f2 <;> simp [cryptBlocksEncF]
    · have hpos : 0 < s.length := List.length_pos.mpr hs
      cases f2 with
      | zero => omega
      | succ h =>
        simp only [cryptBlocksEncF, if_neg hs]
        have hd1 : (s.drop 16).length ≤ g := by
          simp only [List.length_drop]; omega
        have hd2 : (s.drop 16).length ≤ h := by
          simp only [List.length_drop]; omega
        rw [ih _ _ _ hd1 hd2]

theorem cryptBlocksDecF_fuel (D : Bytes → Bytes) :
    ∀ f1 f2 chain s, s.length ≤ f1 → s.length ≤ f2 →
      cryptBlocksDecF D f1 chain s = cryptBlocksDecF D f2 chain s := by
  intro f1
  induction f1 with
  | zero =>
    intro f2 chain s h1 _
    have hs : s = [] := List.eq_nil_of_length_eq_zero (Nat.le_zero.mp h1)
    subst hs
    cases f2 <;> simp [cryptBlocksDecF]
  | succ g ih =>
    intro f2 chain s h1 h2
    by_cases hs : s = []
    · subst hs
      cases f2 <;> simp [cryptBlocksDecF]
    · have hpos : 0 < s.length := List.length_pos.mpr hs
      cases f2 with
      | zero => omega
      | succ h =>
        simp only [cryptBlocksDecF, if_neg hs]
        have hd1 : (s.drop 16).length ≤ g := by
          simp only [List.length_drop]; omega
        have hd2 : (s.drop 16).length ≤ h := by
          simp only [List.length_drop]; omega
        rw [ih _ _ _ hd1 hd2]

theorem cryptBlocksEnc_nil (E : Bytes → Bytes) (chain : Bytes) :
    cryptBlocksEnc E chain [] = ([], chain) := rfl

theorem cryptBlocksDec_nil (D : Bytes → Bytes) (chain : Bytes) :
    cryptBlocksDec D chain [] = ([], chain) := rfl

theorem cryptBlocksEnc_cons (E : Bytes → Bytes) (chain s : Bytes)
    (hs : s ≠ []) :
    cryptBlocksEnc E chain s =
      (E (xorB (s.take 16) chain) ++
        (cryptBlocksEnc E (E (xorB (s.take 16) chain)) (s.drop 16)).1,
       (cryptBlocksEnc E (E (xorB (s.take 16) chain)) (s.drop 16)).2) := by
  have hpos : 0 < s.length := List.length_pos.mpr hs
  unfold cryptBlocksEnc
  cases hlen : s.length with
  | zero => omega
  | succ m =>
    simp only [cryptBlocksEncF, if_neg hs]
    have hd : (s.drop 16).length ≤ m := by
      simp only [List.length_drop]; omega
    rw [cryptBlocksEncF_fuel E m (s.drop 16).length _ _ hd le_rfl]

theorem cryptBlocksDec_cons (D : Bytes → Bytes) (chain s : Bytes)
    (hs : s ≠ []) :
    cryptBlocksDec D chain s =
      (xorB (D (s.take 16)) chain ++
        (cryptBlocksDec D (s.take 16) (s.drop 16)).1,
       (cryptBlocksDec D (s.take 16) (s.drop 16)).2) := by
  have hpos : 0 < s.length := List.length_pos.mpr hs
  unfold cryptBlocksDec
  cases hlen : s.length with
  | zero => omega
  | succ m =>
    simp only [cryptBlocksDecF, if_neg hs]
    have hd : (s.drop 16).length ≤ m := by
      simp only [List.length_drop]; omega
    rw [cryptBlocksDecF_fuel D m (s.drop 16).length _ _ hd le_rfl]

/-- Induction principle for block-aligned byte strings: peel one 16-byte
block at a time. -/
theorem blocks_induction (P : Bytes → Prop) (h0 : P [])
    (hstep : ∀ b t, b.length = 16 → (16 : Nat) ∣ t.length → P t →
      P (b ++ t)) :
    ∀ s : Bytes, (16 : Nat) ∣ s.length → P s := by
  have haux : ∀ n (s : Bytes), s.length ≤ n → (16 : Nat) ∣ s.length →
      P s := by
    intro n
    induction n with
    | zero =>
      intro s hle _
      have hs : s = [] := List.eq_nil_of_length_eq_zero (Nat.le_zero.mp hle)
      subst hs; exact h0
    | succ m ih =>
      intro s hle hdvd
      by_cases hs : s = []
      · subst hs; exact h0
      · have hpos : 0 < s.length := List.length_pos.mpr hs
        have h16 : 16 ≤ s.length := Nat.le_of_dvd hpos hdvd
        have htl : (s.take 16).length = 16 := by
          simp only [List.length_take]; omega
        have hdl : (16 : Nat) ∣ (s.drop 16).length := by
          simp only [List.length_drop]
          exact (Nat.dvd_sub' hdvd dvd_rfl)
        have hdlen : (s.drop 16).length ≤ m := by
          simp only [List.length_drop]; omega
        have := hstep (s.take 16) (s.drop 16) htl hdl (ih _ hdlen hdl)
        rwa [List.take_append_drop] at this
  exact fun s hdvd => haux s.length s le_rfl hdvd

theorem xorB_length (a b : Bytes) :
    (xorB a b).length = min a.length b.length :=
  List.length_zipWith _ _ _

theorem xorB_cons (a : Nat) (as : Bytes) (b : Nat) (bs : Bytes) :
    xorB (a :: as) (b :: bs) = (a ^^^ b) :: xorB as bs := rfl

theorem xorB_cancel : ∀ a b : Bytes, a.length = b.length →
    xorB (xorB a b) b = a := by
  intro a
  induction a with
  | nil => intro b _; cases b <;> rfl
  | cons x xs ih =>
    intro b hlen
    cases b with
    | nil => simp at hlen
    | cons y ys =>
      simp only [List.length_cons] at hlen
      rw [xorB_cons, xorB_cons, Nat.xor_cancel_right, ih ys (by omega)]

theorem cryptBlocksEnc_append (E : Bytes → Bytes)
    (hE : ∀ b, b.length = 16 → (E b).length = 16)
    (u : Bytes) (hu : (16 : Nat) ∣ u.length) :
    ∀ chain v, chain.length = 16 →
      cryptBlocksEnc E chain (u ++ v) =
        ((cryptBlocksEnc E chain u).1 ++
          (cryptBlocksEnc E (cryptBlocksEnc E chain u).2 v).1,
         (cryptBlocksEnc E (cryptBlocksEnc E chain u).2 v).2) := by
  refine blocks_induction
    (fun w => ∀ chain v, chain.length = 16 →
      cryptBlocksEnc E chain (w ++ v) =
        ((cryptBlocksEnc E chain w).1 ++
          (cryptBlocksEnc E (cryptBlocksEnc E chain w).2 v).1,
         (cryptBlocksEnc E (cryptBlocksEnc E chain w).2 v).2)) ?_ ?_ u hu
  · intro chain v _
    simp [cryptBlocksEnc_nil]
  · intro b t hb ht ih chain v hchain
    have hbt : b ++ (t ++ v) ≠ [] := by
      intro habs
      have := congrArg List.length habs
      simp only [List.length_append, List.length_nil, hb] at this
      omega
    rw [List.append_assoc b t v, cryptBlocksEnc_cons E chain (b ++ (t ++ v)) hbt]
    have htake : (b ++ (t ++ v)).take 16 = b := by
      rw [← hb]; exact List.take_left _ _
    have hdrop : (b ++ (t ++ v)).drop 16 = t ++ v := by
      rw [← hb]; exact List.drop_left _ _
    have hbne : b ++ t ≠ [] := by
      intro habs
      have := congrArg List.length habs
      simp only [List.length_append, List.length_nil, hb] at this
      omega
    rw [cryptBlocksEnc_cons E chain (b ++ t) hbne]
    have htake2 : (b ++ t).take 16 = b := by
      rw [← hb]; exact List.take_left _ _
    have hdrop2 : (b ++ t).drop 16 = t := by
      rw [← hb]; exact List.drop_left _ _
    simp only [htake, hdrop, htake2, hdrop2]
    have hclen : (E (xorB b chain)).length = 16 := by
      apply hE
      rw [xorB_length, hb, hchain]
      simp
    rw [ih (E (xorB b chain)) v hclen]
    simp [List.append_assoc]

theorem cryptBlocksDec_append (D : Bytes → Bytes)
    (u : Bytes) (hu : (16 : Nat) ∣ u.length) :
    ∀ chain v, chain.length = 16 →
      cryptBlocksDec D chain (u ++ v) =
        ((cryptBlocksDec D chain u).1 ++
          (cryptBlocksDec D (cryptBlocksDec D chain u).2 v).1,
         (cryptBlocksDec D (cryptBlocksDec D chain u).2 v).2) := by
  refine blocks_induction
    (fun w => ∀ chain v, chain.length = 16 →
      cryptBlocksDec D chain (w ++ v) =
        ((cryptBlocksDec D chain w).1 ++
          (cryptBlocksDec D (cryptBlocksDec D chain w).2 v).1,
         (cryptBlocksDec D (cryptBlocksDec D chain w).2 v).2)) ?_ ?_ u hu
  · intro chain v _
    simp [cryptBlocksDec_nil]
  · intro b t hb ht ih chain v hchain
    have hbt : b ++ (t ++ v) ≠ [] := by
      intro habs
      have := congrArg List.length habs
      simp only [List.length_append, List.length_nil, hb] at this
      omega
    rw [List.append_assoc b t v, cryptBlocksDec_cons D chain (b ++ (t ++ v)) hbt]
    have htake : (b ++ (t ++ v)).take 16 = b := by
      rw [← hb]; exact List.take_left _ _
    have hdrop : (b ++ (t ++ v)).drop 16 = t ++ v := by
      rw [← hb]; exact List.drop_left _ _
    have hbne : b ++ t ≠ [] := by
      intro habs
      have := congrArg List.length habs
      simp only [List.length_append, List.length_nil, hb] at this
      omega
    rw [cryptBlocksDec_cons D chain (b ++ t) hbne]
    have htake2 : (b ++ t).take 16 = b := by
      rw [← hb]; exact List.take_left _ _
    have hdrop2 : (b ++ t).drop 16 = t := by
      rw [← hb]; exact List.drop_left _ _
    simp only [htake, hdrop, htake2, hdrop2]
    rw [ih b v hb]
    simp [List.append_assoc]

theorem cryptBlocksEnc_len (E : Bytes → Bytes)
    (hE : ∀ b, b.length = 16 → (E b).length = 16)
    (s : Bytes) (hs : (16 : Nat) ∣ s.length) :
    ∀ chain, chain.length = 16 →
      (cryptBlocksEnc E chain s).1.length = s.length ∧
      (cryptBlocksEnc E chain s).2.length = 16 := by
  refine blocks_induction
    (fun w => ∀ chain, chain.length = 16 →
      (cryptBlocksEnc E chain w).1.length = w.length ∧
      (cryptBlocksEnc E chain w).2.length = 16) ?_ ?_ s hs
  · intro chain hchain
    simp [cryptBlocksEnc_nil, hchain]
  · intro b t hb ht ih chain hchain
    have hbt : b ++ t ≠ [] := by
      intro habs
      have := congrArg List.length habs
      simp only [List.length_append, List.length_nil, hb] at this
      omega
    rw [cryptBlocksEnc_cons E chain (b ++ t) hbt]
    have htake : (b ++ t).take 16 = b := by
      rw [← hb]; exact List.take_left _ _
    have hdrop : (b ++ t).drop 16 = t := by
      rw [← hb]; exact List.drop_left _ _
    simp only [htake, hdrop]
    have hclen : (E (xorB b chain)).length = 16 := by
      apply hE
      rw [xorB_length, hb, hchain]
      simp
    obtain ⟨h1, h2⟩ := ih (E (xorB b chain)) hclen
    exact ⟨by simp only [List.length_append, h1, hclen, hb], h2⟩

theorem cryptBlocksDec_len (D : Bytes → Bytes)
    (hD : ∀ b, b.length = 16 → (D b).length = 16)
    (s : Bytes) (hs : (16 : Nat) ∣ s.length) :
    ∀ chain, chain.length = 16 →
      (cryptBlocksDec D chain s).1.length = s.length ∧
      (cryptBlocksDec D chain s).2.length = 16 := by
  refine blocks_induction
    (fun w => ∀ chain, chain.length = 16 →
      (cryptBlocksDec D chain w).1.length = w.length ∧
      (cryptBlocksDec D chain w).2.length = 16) ?_ ?_ s hs
  · intro chain hchain
    simp [cryptBlocksDec_nil, hchain]
  · intro b t hb ht ih chain hchain
    have hbt : b ++ t ≠ [] := by
      intro habs
      have := congrArg List.length habs
      simp only [List.length_append, List.length_nil, hb] at this
      omega
    rw [cryptBlocksDec_cons D chain (b ++ t) hbt]
    have htake : (b ++ t).take 16 = b := by
      rw [← hb]; exact List.take_left _ _
    have hdrop : (b ++ t).drop 16 = t := by
      rw [← hb]; exact List.drop_left _ _
    simp only [htake, hdrop]
    obtain ⟨h1, h2⟩ := ih b hb
    have hplen : (xorB (D b) chain).length = 16 := by
      rw [xorB_length, hD b hb, hchain]
      simp
    exact ⟨by simp only [List.length_append, h1, hplen, hb], h2⟩

/-- Decrypting what was just encrypted under the same starting chain value
recovers the plaintext, and the two `BlockMode` states agree (both end at
the last ciphertext block). -/
theorem cryptBlocksDec_cryptBlocksEnc (E D : Bytes → Bytes)
    (hE : ∀ b, b.length = 16 → (E b).length = 16)
    (hED : ∀ b, b.length = 16 → D (E b) = b)
    (s : Bytes) (hs : (16 : Nat) ∣ s.length) :
    ∀ chain, chain.length = 16 →
      cryptBlocksDec D chain (cryptBlocksEnc E chain s).1 =
        (s, (cryptBlocksEnc E chain s).2) := by
  refine blocks_induction
    (fun w => ∀ chain, chain.length = 16 →
      cryptBlocksDec D chain (cryptBlocksEnc E chain w).1 =
        (w, (cryptBlocksEnc E chain w).2)) ?_ ?_ s hs
  · intro chain hchain
    simp [cryptBlocksEnc_nil, cryptBlocksDec_nil]
  · intro b t hb ht ih chain hchain
    have hbt : b ++ t ≠ [] := by
      intro habs
      have := congrArg List.length habs
      simp only [List.length_append, List.length_nil, hb] at this
      omega
    rw [cryptBlocksEnc_cons E chain (b ++ t) hbt]
    have htake : (b ++ t).take 16 = b := by
      rw [← hb]; exact List.take_left _ _
    have hdrop : (b ++ t).drop 16 = t := by
      rw [← hb]; exact List.drop_left _ _
    simp only [htake, hdrop]
    have hxlen : (xorB b chain).length = 16 := by
      rw [xorB_length, hb, hchain]; simp
    have hclen : (E (xorB b chain)).length = 16 := hE _ hxlen
    have hne : E (xorB b chain) ++
        (cryptBlocksEnc E (E (xorB b chain)) t).1 ≠ [] := by
      intro habs
      have := congrArg List.length habs
      simp only [List.length_append, List.length_nil, hclen] at this
      omega
    rw [cryptBlocksDec_cons D chain _ hne]
    have htake2 : (E (xorB b chain) ++
        (cryptBlocksEnc E (E (xorB b chain)) t).1).take 16 =
        E (xorB b chain) := by
      rw [← hclen]; exact List.take_left _ _
    have hdrop2 : (E (xorB b chain) ++
        (cryptBlocksEnc E (E (xorB b chain)) t).1).drop 16 =
        (cryptBlocksEnc E (E (xorB b chain)) t).1 := by
      rw [← hclen]; exact List.drop_left _ _
    rw [htake2, hdrop2]
    have hfirst : xorB (D (E (xorB b chain))) chain = b := by
      rw [hED _ hxlen, xorB_cancel b chain (by rw [hb, hchain])]
    rw [hfirst, ih (E (xorB b chain)) hclen]

/-! ## CBC streaming readers (src/encryption/aes_cbc.go)

`io.Copy` repeatedly calls `Read` with a 32 KiB buffer (`dataLen`).  A
non-EOF source read delivers one chunk of the source's chunk list; once
the list is exhausted every further source read returns `(0, io.EOF)`
(`bytes.Reader` semantics), driving the reader's EOF branch until it
returns `io.EOF` itself.  The reader state holds the carry buffer
(`r.buf`), the `BlockMode`'s chaining value, and — for encryption — the
running byte count `r.size`. -/

/-- `getSliceSize`: intermediate values can go negative in Go, so the
computation is done in `Int` before the `size <= 0` test. -/
def getSliceSize (blockSize bufSize dataSize : Nat) : Nat :=
  let size := if bufSize > dataSize then dataSize else bufSize
  let size2 : Int := (size : Int) - (size % blockSize : Nat) - (blockSize : Int)
  if size2 ≤ 0 then blockSize else size2.toNat

structure EncState where
  buf : Bytes
  chain : Bytes
  size : Nat
deriving Repr

structure DecState where
  buf : Bytes
  chain : Bytes
deriving Repr

/-- One `cbcEncryptReader.Read` in which the source delivered chunk `c`
with a nil error: append to the carry buffer, and if at least one full
block is buffered, encrypt and emit the buffered whole blocks (capped at
the destination buffer's block capacity); otherwise return `n = 0`.
Result: (bytes written to the destination, new state). -/
def encReadChunk (E : Bytes → Bytes) (dataLen : Nat) (st : EncState)
    (c : Bytes) : Bytes × EncState :=
  let size2 := st.size + c.length
  let buf2 := st.buf ++ c
  if buf2.length ≥ 16 then
    let nBlocks := buf2.length / 16
    let nBlocks := if buf2.length > dataLen then dataLen / 16 else nBlocks
    if nBlocks > 0 then
      let b := buf2.take (nBlocks * 16)
      let r := cryptBlocksEnc E st.chain b
      (r.1, ⟨buf2.drop (nBlocks * 16), r.2, size2⟩)
    else ([], ⟨buf2, st.chain, size2⟩)
  else
    ([], ⟨buf2, st.chain, size2⟩)

/-- One `cbcEncryptReader.Read` in which the source returned
`(0, io.EOF)`: drain up to `getSliceSize` bytes from the carry buffer; if
that empties the buffer, pad with the running total and encrypt the final
block, returning `io.EOF` (the `Bool` result); otherwise encrypt and emit
the drained bytes with a nil error. -/
def encReadEOF (E : Bytes → Bytes) (dataLen : Nat) (st : EncState) :
    Bytes × Bool × EncState :=
  let bLen := getSliceSize 16 st.buf.length dataLen
  let n := min bLen st.buf.length
  let bufRem := st.buf.drop n
  if bufRem.length = 0 then
    let b := pkcs7Pad 16 (st.buf.take n) st.size
    let r := cryptBlocksEnc E st.chain b
    (r.1, true, ⟨[], r.2, st.size⟩)
  else
    let b := st.buf.take n
    let r := cryptBlocksEnc E st.chain b
    (r.1, false, ⟨bufRem, r.2, st.size⟩)

/-- The EOF phase of the encrypting copy loop: repeat `encReadEOF` until
it returns `io.EOF`.  The fuel bounds the iteration count;
`st.buf.length + 1` always suffices. -/
def encEOFLoop (E : Bytes → Bytes) (dataLen : Nat) :
    Nat → EncState → Bytes
  | 0, _ => []
  | fuel + 1, st =>
    let r := encReadEOF E dataLen st
    if r.2.1 then r.1 else r.1 ++ encEOFLoop E dataLen fuel r.2.2

/-- The whole `io.Copy(dst, cbcEncryptReader)` loop over the source's
chunk list. -/
def encLoop (E : Bytes → Bytes) (dataLen : Nat) :
    List Bytes → EncState → Bytes
  | [], st => encEOFLoop E dataLen (st.buf.length + 1) st
  | c :: cs, st =>
    let r := encReadChunk E dataLen st c
    r.1 ++ encLoop E dataLen cs r.2

/-- `cbcCipher.EncryptStream`: `aes.NewCipher` validates the key length,
the IV is written first, then the copy loop runs over the `bytes.Reader`
chunks of the source. -/
def cbcEncryptStream (E : Bytes → Bytes) (c : cbcCipher) (src : Bytes) :
    Except String Bytes :=
  if c.key.length = 16 ∨ c.key.length = 24 ∨ c.key.length = 32 then
    .ok (c.iv ++ encLoop E 32768 (chunksOf 32768 src) ⟨[], c.iv, 0⟩)
  else .error "crypto/aes: invalid key size"

/-- One `cbcDecryptReader.Read` in which the source delivered chunk `c`
with a nil error.  When the carry buffer plus the chunk holds at least one
block, `nBlocks -= blockSize` holds back 16 *blocks* and the positive
remainder is decrypted and emitted (or `n = 0`).  When it holds less than
one block, the `size >= blockSize` branch is skipped entirely and the raw
chunk that `src.Read` placed in the destination buffer is returned with a
nil error — no `n = 0` reset as in the encrypt reader. -/
def decReadChunk (D : Bytes → Bytes) (dataLen : Nat) (st : DecState)
    (c : Bytes) : Bytes × DecState :=
  let buf2 := st.buf ++ c
  if buf2.length ≥ 16 then
    let nBlocks := buf2.length / 16
    let nBlocks := if buf2.length > dataLen then dataLen / 16 else nBlocks
    let nBlocks2 : Int := (nBlocks : Int) - 16
    if nBlocks2 > 0 then
      let b := buf2.take (nBlocks2.toNat * 16)
      let r := cryptBlocksDec D st.chain b
      (r.1, ⟨buf2.drop (nBlocks2.toNat * 16), r.2⟩)
    else
      ([], ⟨buf2, st.chain⟩)
  else
    (c, ⟨buf2, st.chain⟩)

/-- One `cbcDecryptReader.Read` in which the source returned
`(0, io.EOF)`: drain up to `getSliceSize` bytes from the carry buffer into
`b` (zero-filled beyond the drained bytes), decrypt all of `b` if anything
was drained, and if the carry buffer is now empty unpad `data[:n]` — which
panics (`none`) when the decrypted pad count exceeds `n` — and finish with
`io.EOF`; otherwise emit the drained decryption with a nil error. -/
def decReadEOF (D : Bytes → Bytes) (dataLen : Nat) (st : DecState) :
    Option (Bytes × Bool × DecState) :=
  let bLen := getSliceSize 16 st.buf.length dataLen
  let n := min bLen st.buf.length
  let b := st.buf.take n ++ List.replicate (bLen - n) 0
  let dec := if n > 0 then cryptBlocksDec D st.chain b else ([], st.chain)
  let bufRem := st.buf.drop n
  if bufRem.length = 0 then
    match pkcs7Unpad (dec.1.take n) with
    | none => none
    | some u => some (u, true, ⟨[], dec.2⟩)
  else
    some (dec.1.take n, false, ⟨bufRem, dec.2⟩)

/-- The EOF phase of the decrypting copy loop. -/
def decEOFLoop (D : Bytes → Bytes) (dataLen : Nat) :
    Nat → DecState → Option Bytes
  | 0, _ => some []
  | fuel + 1, st =>
    match decReadEOF D dataLen st with
    | none => none
    | some (out, true, _) => some out
    | some (out, false, st2) =>
      (out ++ ·) <$> decEOFLoop D dataLen fuel st2

/-- The whole `io.Copy(dst, cbcDecryptReader)` loop over the source's
chunk list; `none` is a panic escaping the copy. -/
def decLoop (D : Bytes → Bytes) (dataLen : Nat) :
    List Bytes → DecState → Option Bytes
  | [], st => decEOFLoop D dataLen (st.buf.length + 1) st
  | c :: cs, st =>
    let r := decReadChunk D dataLen st c
    (r.1 ++ ·) <$> decLoop D dataLen cs r.2

/-- `cbcCipher.DecryptStream`: `aes.NewCipher` validates the key length,
`io.ReadFull` consumes the first 16 bytes of the stream as the IV (failing
on a shorter stream), and the copy loop runs over the remaining
`bytes.Reader` chunks. -/
def cbcDecryptStream (D : Bytes → Bytes) (c : cbcCipher) (src : Bytes) :
    Option (Except String Bytes) :=
  if c.key.length = 16 ∨ c.key.length = 24 ∨ c.key.length = 32 then
    if src.length < 16 then some (.error "unexpected EOF")
    else
      match decLoop D 32768 (chunksOf 32768 (src.drop 16))
          ⟨[], src.take 16⟩ with
      | none => none
      | some out => some (.ok out)
  else some (.error "crypto/aes: invalid key size")

/-- `cbcCipher.DecryptStream` over a source that delivers its bytes in the
given chunks: the first read must yield exactly the 16 IV bytes (consumed
whole by `io.ReadFull`), after which the copy loop sees the remaining
chunk list unchanged.  This models sources other than `bytes.Reader`,
e.g. network readers delivering short reads. -/
def cbcDecryptStreamChunked (D : Bytes → Bytes) (c : cbcCipher)
    (ivChunk : Bytes) (chunks : List Bytes) : Option (Except String Bytes) :=
  if c.key.length = 16 ∨ c.key.length = 24 ∨ c.key.length = 32 then
    if ivChunk.length ≠ 16 then some (.error "unexpected EOF")
    else
      match decLoop D 32768 chunks ⟨[], ivChunk⟩ with
      | none => none
      | some out => some (.ok out)
  else some (.error "crypto/aes: invalid key size")

/-! ## Stream-level correctness of the CBC engine -/

/-- The PKCS7 pad block appended for a stream of `t` total bytes. -/
def padBytes (t : Nat) : Bytes :=
  List.replicate (16 - t % 16) (16 - t % 16)

theorem padBytes_length (t : Nat) : (padBytes t).length = 16 - t % 16 :=
  List.length_replicate _ _

theorem pad16_eq (x : Bytes) (t : Nat) :
    pkcs7Pad 16 x t = x ++ padBytes t := by
  show x ++ List.replicate (16 - t % 16) ((16 - t % 16) % 256) = _
  unfold padBytes
  rw [Nat.mod_eq_of_lt (by omega : 16 - t % 16 < 256)]

theorem getLastD_append_of_ne_nil (x y : Bytes) (d : Nat) (hy : y ≠ []) :
    (x ++ y).getLastD d = y.getLastD d := by
  rw [List.getLastD_eq_getLast?, List.getLastD_eq_getLast?,
    List.getLast?_append]
  rcases List.exists_cons_of_ne_nil hy with ⟨a, t, rfl⟩
  rw [List.getLast?_eq_getLast (a :: t) (by simp)]
  rfl

theorem getLastD_replicate (n v d : Nat) (hn : 0 < n) :
    (List.replicate n v).getLastD d = v := by
  cases n with
  | zero => omega
  | succ m =>
    rw [List.getLastD_eq_getLast?, List.replicate_succ',
      List.getLast?_concat]
    rfl

theorem getSliceSize_small (bufSize : Nat) (h : bufSize < 16) :
    getSliceSize 16 bufSize 32768 = 16 := by
  simp only [getSliceSize]
  split_ifs <;> omega

theorem getSliceSize_aligned (bufSize : Nat) (hdvd : (16 : Nat) ∣ bufSize)
    (h32 : 32 ≤ bufSize) :
    getSliceSize 16 bufSize 32768 =
      (if bufSize > 32768 then 32768 else bufSize) - 16 := by
  have hmod : bufSize % 16 = 0 := by omega
  simp only [getSliceSize]
  split_ifs <;> omega

/-- The final `Read` of the encrypt copy loop: with less than a block
carried (always the case for a `bytes.Reader` source), the EOF branch
pads the carry to one block with the running total and finishes. -/
theorem encEOFLoop_final (E : Bytes → Bytes) (st : EncState) (fuel : Nat)
    (hlt : st.buf.length < 16) :
    encEOFLoop E 32768 (fuel + 1) st =
      (cryptBlocksEnc E st.chain (st.buf ++ padBytes st.size)).1 := by
  have hslice : getSliceSize 16 st.buf.length 32768 = 16 :=
    getSliceSize_small _ hlt
  have hread : encReadEOF E 32768 st =
      ((cryptBlocksEnc E st.chain (st.buf ++ padBytes st.size)).1, true,
        ⟨[], (cryptBlocksEnc E st.chain (st.buf ++ padBytes st.size)).2,
          st.size⟩) := by
    simp only [encReadEOF, hslice, min_eq_right (Nat.le_of_lt hlt),
      List.drop_length, List.length_nil, List.take_length, if_pos,
      pad16_eq]
  show (if (encReadEOF E 32768 st).2.1 then (encReadEOF E 32768 st).1
    else (encReadEOF E 32768 st).1 ++
      encEOFLoop E 32768 fuel (encReadEOF E 32768 st).2.2) = _
  rw [hread]
  simp

/-- `cbcEncryptReader` correctness: feeding the chunk list of the source
through the copy loop emits exactly the CBC encryption of the whole
source followed by its PKCS7 pad block. -/
theorem encLoop_spec (E : Bytes → Bytes)
    (hE : ∀ b, b.length = 16 → (E b).length = 16) :
    ∀ chunks : List Bytes, (∀ c ∈ chunks, c ≠ [] ∧ c.length ≤ 32768) →
    ∀ st : EncState, st.buf.length < 16 → st.size % 16 = st.buf.length →
      st.chain.length = 16 →
      encLoop E 32768 chunks st =
        (cryptBlocksEnc E st.chain (st.buf ++ chunks.flatten ++
          padBytes (st.size + chunks.flatten.length))).1 := by
  intro chunks
  induction chunks with
  | nil =>
    intro _ st hlt hsz hch
    show encEOFLoop E 32768 (st.buf.length + 1) st = _
    rw [encEOFLoop_final E st st.buf.length hlt]
    simp only [List.flatten_nil, List.append_nil, List.length_nil,
      Nat.add_zero]
  | cons c cs ih =>
    intro hmem st hlt hsz hch
    obtain ⟨hcne, hcle⟩ := hmem c (List.mem_cons_self c cs)
    have hmem2 : ∀ d ∈ cs, d ≠ [] ∧ d.length ≤ 32768 :=
      fun d hd => hmem d (List.mem_cons_of_mem c hd)
    have hcpos : 0 < c.length := List.length_pos.mpr hcne
    have hlen2 : (st.buf ++ c).length = st.buf.length + c.length :=
      List.length_append _ _
    show (encReadChunk E 32768 st c).1 ++
      encLoop E 32768 cs (encReadChunk E 32768 st c).2 = _
    by_cases h16 : (st.buf ++ c).length ≥ 16
    · have hcap : (if (st.buf ++ c).length > 32768 then 32768 / 16
          else (st.buf ++ c).length / 16) = (st.buf ++ c).length / 16 := by
        by_cases hbig : (st.buf ++ c).length > 32768
        · rw [if_pos hbig]
          omega
        · rw [if_neg hbig]
      have hnbpos : (st.buf ++ c).length / 16 > 0 := by omega
      have hread : encReadChunk E 32768 st c =
          ((cryptBlocksEnc E st.chain
            ((st.buf ++ c).take ((st.buf ++ c).length / 16 * 16))).1,
           ⟨(st.buf ++ c).drop ((st.buf ++ c).length / 16 * 16),
            (cryptBlocksEnc E st.chain
              ((st.buf ++ c).take ((st.buf ++ c).length / 16 * 16))).2,
            st.size + c.length⟩) := by
        simp only [encReadChunk, hcap]
        rw [if_pos h16, if_pos hnbpos]
      rw [hread]
      set m := (st.buf ++ c).length / 16 with hm
      have hm16 : m * 16 ≤ (st.buf ++ c).length := by omega
      have htlen : ((st.buf ++ c).take (m * 16)).length = m * 16 := by
        simp only [List.length_take]; omega
      have hdlen : ((st.buf ++ c).drop (m * 16)).length =
          (st.buf ++ c).length - m * 16 := List.length_drop _ _
      have hdlt : ((st.buf ++ c).drop (m * 16)).length < 16 := by omega
      have htdvd : (16 : Nat) ∣ ((st.buf ++ c).take (m * 16)).length := by
        rw [htlen]; exact dvd_mul_left 16 m
      have hch2 : (cryptBlocksEnc E st.chain
          ((st.buf ++ c).take (m * 16))).2.length = 16 :=
        (cryptBlocksEnc_len E hE _ htdvd st.chain hch).2
      have hsz2 : (st.size + c.length) % 16 =
          ((st.buf ++ c).drop (m * 16)).length := by omega
      rw [ih hmem2 ⟨(st.buf ++ c).drop (m * 16),
        (cryptBlocksEnc E st.chain ((st.buf ++ c).take (m * 16))).2,
        st.size + c.length⟩ hdlt hsz2 hch2]
      have hsplit : st.buf ++ (c :: cs).flatten ++
          padBytes (st.size + (c :: cs).flatten.length) =
          (st.buf ++ c).take (m * 16) ++
          ((st.buf ++ c).drop (m * 16) ++ cs.flatten ++
            padBytes (st.size + c.length + cs.flatten.length)) := by
        simp only [List.flatten_cons, List.length_append]
        rw [← Nat.add_assoc]
        conv_rhs => rw [← List.append_assoc, ← List.append_assoc,
          List.take_append_drop]
        simp [List.append_assoc]
      rw [hsplit]
      rw [cryptBlocksEnc_append E hE _ htdvd st.chain _ hch]
    · have hread : encReadChunk E 32768 st c =
          ([], ⟨st.buf ++ c, st.chain, st.size + c.length⟩) := by
        simp only [encReadChunk]
        rw [if_neg h16]
      rw [hread]
      have hlt2 : (st.buf ++ c).length < 16 := by omega
      have hsz2 : (st.size + c.length) % 16 = (st.buf ++ c).length := by
        omega
      rw [ih hmem2 ⟨st.buf ++ c, st.chain, st.size + c.length⟩ hlt2 hsz2 hch]
      simp [List.append_assoc, Nat.add_assoc]

/-- The overall result of the decrypt copy loop on remaining ciphertext
`buf` from chain value `chain`: the CBC decryption of `buf` with the
trailing pad count stripped from the final 16-byte window, or a panic
(`none`) when that count exceeds 16. -/
def decResult (D : Bytes → Bytes) (chain buf : Bytes) : Option Bytes :=
  if buf.length = 0 then some []
  else
    let full := (cryptBlocksDec D chain buf).1
    let k := full.getLastD 0
    if 16 < k then none else some (full.take (full.length - k))

theorem flatten_length_dvd (d : Nat) :
    ∀ chunks : List Bytes, (∀ c ∈ chunks, d ∣ c.length) →
      d ∣ chunks.flatten.length := by
  intro chunks
  induction chunks with
  | nil => intro _; simp
  | cons c cs ih =>
    intro h
    simp only [List.flatten_cons, List.length_append]
    exact Nat.dvd_add (h c (List.mem_cons_self c cs))
      (ih fun d hd => h d (List.mem_cons_of_mem c hd))

/-- Stitching: emitting the decryption of a block-aligned prefix and then
finishing on the rest equals finishing on the whole. -/
theorem decResult_append (D : Bytes → Bytes)
    (hD : ∀ b, b.length = 16 → (D b).length = 16)
    (chain u v : Bytes) (hu : (16 : Nat) ∣ u.length)
    (hv : (16 : Nat) ∣ v.length) (hvpos : 0 < v.length)
    (hch : chain.length = 16) :
    ((cryptBlocksDec D chain u).1 ++ ·) <$>
      decResult D (cryptBlocksDec D chain u).2 v =
    decResult D chain (u ++ v) := by
  have hsplit := cryptBlocksDec_append D u hu chain v hch
  have hulen := cryptBlocksDec_len D hD u hu chain hch
  have hch2 : (cryptBlocksDec D chain u).2.length = 16 := hulen.2
  have hvlen := cryptBlocksDec_len D hD v hv _ hch2
  have hvfull : (cryptBlocksDec D (cryptBlocksDec D chain u).2 v).1 ≠ [] := by
    intro habs
    rw [habs] at hvlen
    simp only [List.length_nil] at hvlen
    omega
  have hlen0 : ¬ (u ++ v).length = 0 := by
    rw [List.length_append]; omega
  have hlast : ((cryptBlocksDec D chain u).1 ++
      (cryptBlocksDec D (cryptBlocksDec D chain u).2 v).1).getLastD 0 =
      (cryptBlocksDec D (cryptBlocksDec D chain u).2 v).1.getLastD 0 :=
    getLastD_append_of_ne_nil _ _ 0 hvfull
  simp only [decResult]
  rw [if_neg hlen0, if_neg (by omega : ¬ v.length = 0)]
  simp only [hsplit, hlast]
  by_cases hkk : 16 <
      (cryptBlocksDec D (cryptBlocksDec D chain u).2 v).1.getLastD 0
  · rw [if_pos hkk, if_pos hkk]
    rfl
  · rw [if_neg hkk, if_neg hkk]
    show some _ = some _
    congr 1
    rw [List.length_append, hulen.1, hvlen.1]
    rw [show u.length + v.length -
        (cryptBlocksDec D (cryptBlocksDec D chain u).2 v).1.getLastD 0 =
        u.length + (v.length -
          (cryptBlocksDec D (cryptBlocksDec D chain u).2 v).1.getLastD 0)
      from by omega]
    rw [← hulen.1, List.take_append]

/-- `decReadEOF` on an empty carry buffer: nothing decrypted, empty unpad,
`io.EOF`. -/
theorem decReadEOF_nil (D : Bytes → Bytes) (chain : Bytes) :
    decReadEOF D 32768 ⟨[], chain⟩ = some ([], true, ⟨[], chain⟩) := rfl

/-- `decReadEOF` on a carry of exactly one block: decrypt it, unpad
`data[:16]` (panicking when the pad count exceeds 16), `io.EOF`. -/
theorem decReadEOF_final (D : Bytes → Bytes)
    (hD : ∀ b, b.length = 16 → (D b).length = 16)
    (buf chain : Bytes) (hlen : buf.length = 16) (hch : chain.length = 16) :
    decReadEOF D 32768 ⟨buf, chain⟩ =
      match pkcs7Unpad (cryptBlocksDec D chain buf).1 with
      | none => none
      | some u => some (u, true, ⟨[], (cryptBlocksDec D chain buf).2⟩) := by
  have hslice : getSliceSize 16 buf.length 32768 = 16 := by
    rw [hlen]; decide
  have hmin2 : (16 : Nat) ⊓ buf.length = 16 := by omega
  have htake : buf.take 16 = buf := by
    rw [← hlen]; exact List.take_length buf
  have hdrop : buf.drop 16 = [] := by
    rw [← hlen]; exact List.drop_length buf
  have hdec1 : (cryptBlocksDec D chain buf).1.length = 16 := by
    have h := cryptBlocksDec_len D hD buf (by rw [hlen]) chain hch
    rw [hlen] at h
    exact h.1
  have htake2 : (cryptBlocksDec D chain buf).1.take 16 =
      (cryptBlocksDec D chain buf).1 :=
    List.take_of_length_le (by rw [hdec1])
  simp only [decReadEOF, hslice, hmin2, Nat.sub_self, List.replicate_zero,
    List.append_nil, htake, hdrop, htake2, List.length_nil]
  rw [if_pos trivial, if_pos (by norm_num : (16 : Nat) > 0), htake2]

/-- `decReadEOF` with at least two blocks carried: drain all but 16 bytes
(capped at the 32 KiB destination), decrypt and emit them with a nil
error. -/
theorem decReadEOF_mid (D : Bytes → Bytes)
    (hD : ∀ b, b.length = 16 → (D b).length = 16)
    (buf chain : Bytes) (hdvd : (16 : Nat) ∣ buf.length)
    (h32 : 32 ≤ buf.length) (hch : chain.length = 16) :
    decReadEOF D 32768 ⟨buf, chain⟩ =
      some ((cryptBlocksDec D chain
          (buf.take ((if buf.length > 32768 then 32768 else buf.length) - 16))).1,
        false,
        ⟨buf.drop ((if buf.length > 32768 then 32768 else buf.length) - 16),
         (cryptBlocksDec D chain
          (buf.take ((if buf.length > 32768 then 32768 else buf.length) - 16))).2⟩) := by
  set bLen := (if buf.length > 32768 then 32768 else buf.length) - 16
    with hbl
  have hslice : getSliceSize 16 buf.length 32768 = bLen :=
    getSliceSize_aligned buf.length hdvd h32
  have hble : bLen ≤ buf.length - 16 := by
    rw [hbl]; split_ifs <;> omega
  have hb16 : 16 ≤ bLen := by
    rw [hbl]; split_ifs <;> omega
  have hmin2 : bLen ⊓ buf.length = bLen := by omega
  have hbdvd : (16 : Nat) ∣ bLen := by
    rw [hbl]; split_ifs with h
    · omega
    · omega
  have htlen : (buf.take bLen).length = bLen := by
    simp only [List.length_take]; omega
  have hdec1 : (cryptBlocksDec D chain (buf.take bLen)).1.length = bLen := by
    have h := cryptBlocksDec_len D hD (buf.take bLen)
      (by rw [htlen]; exact hbdvd) chain hch
    rw [htlen] at h
    exact h.1
  have htake2 : (cryptBlocksDec D chain (buf.take bLen)).1.take bLen =
      (cryptBlocksDec D chain (buf.take bLen)).1 :=
    List.take_of_length_le (by rw [hdec1])
  have hrem : ¬ (buf.drop bLen).length = 0 := by
    rw [List.length_drop]; omega
  simp only [decReadEOF, hslice, hmin2, Nat.sub_self, List.replicate_zero,
    List.append_nil, htake2]
  rw [if_pos (by omega : bLen > 0), if_neg hrem, htake2]

/-- The EOF phase of the decrypt copy loop computes `decResult`. -/
theorem decEOFLoop_spec (D : Bytes → Bytes)
    (hD : ∀ b, b.length = 16 → (D b).length = 16) :
    ∀ n (buf chain : Bytes) (fuel : Nat), buf.length ≤ n →
      (16 : Nat) ∣ buf.length → chain.length = 16 →
      buf.length + 1 ≤ fuel →
      decEOFLoop D 32768 fuel ⟨buf, chain⟩ = decResult D chain buf := by
  intro n
  induction n with
  | zero =>
    intro buf chain fuel hle _ _ hfuel
    have hb : buf = [] := List.eq_nil_of_length_eq_zero (Nat.le_zero.mp hle)
    subst hb
    obtain ⟨f, rfl⟩ : ∃ f, fuel = f + 1 := ⟨fuel - 1, by omega⟩
    simp only [decEOFLoop, decReadEOF_nil]
    rfl
  | succ m ih =>
    intro buf chain fuel hle hdvd hch hfuel
    by_cases h0 : buf.length = 0
    · have hb : buf = [] := List.eq_nil_of_length_eq_zero h0
      subst hb
      obtain ⟨f, rfl⟩ : ∃ f, fuel = f + 1 := ⟨fuel - 1, by omega⟩
      simp only [decEOFLoop, decReadEOF_nil]
      rfl
    · have h16 : 16 ≤ buf.length := Nat.le_of_dvd (by omega) hdvd
      obtain ⟨f, rfl⟩ : ∃ f, fuel = f + 1 := ⟨fuel - 1, by omega⟩
      by_cases h1 : buf.length = 16
      · have hfull : (cryptBlocksDec D chain buf).1.length = 16 := by
          have h := cryptBlocksDec_len D hD buf (by rw [h1]) chain hch
          rw [h1] at h
          exact h.1
        have hfne : ¬ (cryptBlocksDec D chain buf).1.length = 0 := by omega
        simp only [decEOFLoop]
        rw [decReadEOF_final D hD buf chain h1 hch]
        unfold decResult
        rw [if_neg h0]
        unfold pkcs7Unpad
        rw [if_neg hfne]
        by_cases hk : 16 < (cryptBlocksDec D chain buf).1.getLastD 0
        · rw [if_pos (by omega :
            (cryptBlocksDec D chain buf).1.getLastD 0 >
              (cryptBlocksDec D chain buf).1.length), if_pos hk]
        · rw [if_neg (by omega :
            ¬ (cryptBlocksDec D chain buf).1.getLastD 0 >
              (cryptBlocksDec D chain buf).1.length), if_neg hk]
      · have h32 : 32 ≤ buf.length := by omega
        simp only [decEOFLoop]
        rw [decReadEOF_mid D hD buf chain hdvd h32 hch]
        set bLen := (if buf.length > 32768 then 32768 else buf.length) - 16
          with hbl
        have hble : bLen ≤ buf.length - 16 := by
          rw [hbl]; split_ifs <;> omega
        have hb16 : 16 ≤ bLen := by
          rw [hbl]; split_ifs <;> omega
        have hbdvd : (16 : Nat) ∣ bLen := by
          rw [hbl]; split_ifs with h
          · omega
          · omega
        have htlen : (buf.take bLen).length = bLen := by
          simp only [List.length_take]; omega
        have htdvd : (16 : Nat) ∣ (buf.take bLen).length := by
          rw [htlen]; exact hbdvd
        have hdlen : (buf.drop bLen).length = buf.length - bLen :=
          List.length_drop _ _
        have hddvd : (16 : Nat) ∣ (buf.drop bLen).length := by
          rw [hdlen]; omega
        have hch2 : (cryptBlocksDec D chain (buf.take bLen)).2.length = 16 :=
          (cryptBlocksDec_len D hD _ htdvd chain hch).2
        show ((cryptBlocksDec D chain (buf.take bLen)).1 ++ ·) <$>
          decEOFLoop D 32768 f
            ⟨buf.drop bLen, (cryptBlocksDec D chain (buf.take bLen)).2⟩ =
          decResult D chain buf
        rw [ih (buf.drop bLen) _ f (by omega) hddvd hch2 (by omega)]
        have happ := decResult_append D hD chain (buf.take bLen)
          (buf.drop bLen) htdvd hddvd (by omega) hch
        rw [List.take_append_drop] at happ
        exact happ

/-- `cbcDecryptReader` correctness over the source's chunk list. -/
theorem decLoop_spec (D : Bytes → Bytes)
    (hD : ∀ b, b.length = 16 → (D b).length = 16) :
    ∀ chunks : List Bytes,
      (∀ c ∈ chunks, c ≠ [] ∧ c.length ≤ 32768 ∧ (16 : Nat) ∣ c.length) →
    ∀ buf chain : Bytes, (16 : Nat) ∣ buf.length → chain.length = 16 →
      decLoop D 32768 chunks ⟨buf, chain⟩ =
        decResult D chain (buf ++ chunks.flatten) := by
  intro chunks
  induction chunks with
  | nil =>
    intro _ buf chain hdvd hch
    show decEOFLoop D 32768 (buf.length + 1) ⟨buf, chain⟩ = _
    rw [decEOFLoop_spec D hD buf.length buf chain (buf.length + 1) le_rfl
      hdvd hch le_rfl]
    simp
  | cons c cs ih =>
    intro hmem buf chain hdvd hch
    obtain ⟨hcne, hcle, hcdvd⟩ := hmem c (List.mem_cons_self c cs)
    have hmem2 : ∀ d ∈ cs, d ≠ [] ∧ d.length ≤ 32768 ∧ (16 : Nat) ∣ d.length :=
      fun d hd => hmem d (List.mem_cons_of_mem c hd)
    have hcpos : 0 < c.length := List.length_pos.mpr hcne
    have hc16 : 16 ≤ c.length := Nat.le_of_dvd hcpos hcdvd
    have hlen2 : (buf ++ c).length = buf.length + c.length :=
      List.length_append _ _
    have h16 : (buf ++ c).length ≥ 16 := by omega
    have hbdvd : (16 : Nat) ∣ (buf ++ c).length := by
      rw [hlen2]; exact Nat.dvd_add hdvd hcdvd
    have hmap : ∀ (x : Bytes) (o : Option Bytes), o = o →
        True := fun _ _ _ => trivial
    show ((decReadChunk D 32768 ⟨buf, chain⟩ c).1 ++ ·) <$>
      decLoop D 32768 cs (decReadChunk D 32768 ⟨buf, chain⟩ c).2 = _
    by_cases hpos : ((if (buf ++ c).length > 32768 then 32768 / 16
        else (buf ++ c).length / 16 : Nat) : Int) - 16 > 0
    · set m := (((if (buf ++ c).length > 32768 then 32768 / 16
        else (buf ++ c).length / 16 : Nat) : Int) - 16).toNat with hm
      have hm16 : m * 16 + 16 ≤ (buf ++ c).length := by
        rw [hm]
        split_ifs at hpos ⊢ with hbig
        · omega
        · omega
      have hread : decReadChunk D 32768 ⟨buf, chain⟩ c =
          ((cryptBlocksDec D chain ((buf ++ c).take (m * 16))).1,
           ⟨(buf ++ c).drop (m * 16),
            (cryptBlocksDec D chain ((buf ++ c).take (m * 16))).2⟩) := by
        simp only [decReadChunk]
        rw [if_pos h16, if_pos hpos]
      rw [hread]
      have htlen : ((buf ++ c).take (m * 16)).length = m * 16 := by
        simp only [List.length_take]; omega
      have htdvd : (16 : Nat) ∣ ((buf ++ c).take (m * 16)).length := by
        rw [htlen]; exact dvd_mul_left 16 m
      have hdlen : ((buf ++ c).drop (m * 16)).length =
          (buf ++ c).length - m * 16 := List.length_drop _ _
      have hddvd : (16 : Nat) ∣ ((buf ++ c).drop (m * 16)).length := by
        rw [hdlen]; omega
      have hch2 : (cryptBlocksDec D chain
          ((buf ++ c).take (m * 16))).2.length = 16 :=
        (cryptBlocksDec_len D hD _ htdvd chain hch).2
      rw [ih hmem2 ((buf ++ c).drop (m * 16)) _ hddvd hch2]
      have hvdvd : (16 : Nat) ∣
          ((buf ++ c).drop (m * 16) ++ cs.flatten).length := by
        rw [List.length_append]
        exact Nat.dvd_add hddvd
          (flatten_length_dvd 16 cs fun d hd => (hmem2 d hd).2.2)
      have hvpos : 0 < ((buf ++ c).drop (m * 16) ++ cs.flatten).length := by
        rw [List.length_append]; omega
      have happ := decResult_append D hD chain ((buf ++ c).take (m * 16))
        ((buf ++ c).drop (m * 16) ++ cs.flatten) htdvd hvdvd hvpos hch
      rw [← List.append_assoc, List.take_append_drop] at happ
      rw [happ]
      simp [List.append_assoc]
    · have hread : decReadChunk D 32768 ⟨buf, chain⟩ c =
          ([], ⟨buf ++ c, chain⟩) := by
        simp only [decReadChunk]
        rw [if_pos h16, if_neg hpos]
      rw [hread]
      have hmapnil : ∀ (o : Option Bytes), (([] : Bytes) ++ ·) <$> o = o := by
        intro o; cases o <;> simp
      rw [hmapnil]
      rw [ih hmem2 (buf ++ c) chain hbdvd hch]
      simp [List.append_assoc]

/-- `cbcEncryptStream` over a `bytes.Reader` source: the output is the IV
followed by the CBC encryption of the padded plaintext. -/
theorem cbcEncryptStream_spec (E : Bytes → Bytes)
    (hE : ∀ b, b.length = 16 → (E b).length = 16) (key iv P : Bytes)
    (hkey : key.length = 16 ∨ key.length = 24 ∨ key.length = 32)
    (hiv : iv.length = 16) :
    cbcEncryptStream E ⟨key, iv⟩ P =
      .ok (iv ++ (cryptBlocksEnc E iv (P ++ padBytes P.length)).1) := by
  unfold cbcEncryptStream
  rw [if_pos hkey]
  have hmem : ∀ c ∈ chunksOf 32768 P, c ≠ [] ∧ c.length ≤ 32768 :=
    fun c hc => chunksOf_mem 32768 (by norm_num) P c hc
  rw [encLoop_spec E hE (chunksOf 32768 P) hmem ⟨[], iv, 0⟩
    (by simp) (by simp) hiv]
  rw [chunksOf_flatten 32768 (by norm_num) P]
  simp

/-- `cbcDecryptStream` over a `bytes.Reader` source carrying a
block-aligned ciphertext body after the IV. -/
theorem cbcDecryptStream_spec (D : Bytes → Bytes)
    (hD : ∀ b, b.length = 16 → (D b).length = 16) (key iv body : Bytes)
    (hkey : key.length = 16 ∨ key.length = 24 ∨ key.length = 32)
    (hiv : iv.length = 16) (hdvd : (16 : Nat) ∣ body.length) :
    cbcDecryptStream D ⟨key, iv⟩ (iv ++ body) =
      match decResult D iv body with
      | none => none
      | some out => some (.ok out) := by
  unfold cbcDecryptStream
  rw [if_pos hkey]
  rw [if_neg (by rw [List.length_append, hiv]; omega :
    ¬ (iv ++ body).length < 16)]
  have htake : (iv ++ body).take 16 = iv := by
    rw [← hiv]; exact List.take_left _ _
  have hdrop : (iv ++ body).drop 16 = body := by
    rw [← hiv]; exact List.drop_left _ _
  rw [htake, hdrop]
  have hmem : ∀ c ∈ chunksOf 32768 body,
      c ≠ [] ∧ c.length ≤ 32768 ∧ (16 : Nat) ∣ c.length := by
    intro c hc
    obtain ⟨h1, h2⟩ := chunksOf_mem 32768 (by norm_num) body c hc
    exact ⟨h1, h2, chunksOf_mem_dvd 32768 16 (by norm_num) (by norm_num)
      body c hdvd hc⟩
  rw [decLoop_spec D hD (chunksOf 32768 body) hmem [] iv (by simp) hiv]
  rw [chunksOf_flatten 32768 (by norm_num) body]
  rfl

/-! ## Claims C1, C8, C9 -/

/-- **C1**: for every plaintext (empty, partial-block, block-aligned or
multi-block) and both suites, `DecryptStream` applied to the output of
`EncryptStream` under the same key (and IV for CBC) returns exactly the
plaintext.  The AES block function (`E` with inverse `D`) and the GCM
seal/open pair are the external `crypto` primitives, abstracted with their
contractual properties as hypotheses. -/
theorem C1_decrypt_encrypt_roundtrip :
    (∀ (E D : Bytes → Bytes) (key iv P : Bytes),
      (key.length = 16 ∨ key.length = 24 ∨ key.length = 32) →
      iv.length = 16 →
      (∀ b, b.length = 16 → (E b).length = 16) →
      (∀ b, b.length = 16 → (D b).length = 16) →
      (∀ b, b.length = 16 → D (E b) = b) →
      ∀ ct, cbcEncryptStream E ⟨key, iv⟩ P = .ok ct →
        cbcDecryptStream D ⟨key, iv⟩ ct = some (.ok P)) ∧
    (∀ (sealF : Bytes → Bytes → Bytes)
      (gcmOpen : Bytes → Bytes → Option Bytes) (key nonce P : Bytes),
      nonce.length = 12 →
      gcmOpen nonce (sealF nonce P) = some P →
      ∀ ct, gcmEncryptStream sealF ⟨key, true⟩ nonce P = .ok ct →
        gcmDecryptStream gcmOpen ⟨key, true⟩ ct = some (.ok P)) := by
  constructor
  · intro E D key iv P hkey hiv hE hD hED ct hct
    rw [cbcEncryptStream_spec E hE key iv P hkey hiv] at hct
    injection hct with hcteq
    subst hcteq
    have hpadlen : (P ++ padBytes P.length).length =
        P.length + (16 - P.length % 16) := by
      rw [List.length_append, padBytes_length]
    have hpdvd : (16 : Nat) ∣ (P ++ padBytes P.length).length := by
      rw [hpadlen]; omega
    have hblen : (cryptBlocksEnc E iv (P ++ padBytes P.length)).1.length =
        (P ++ padBytes P.length).length :=
      (cryptBlocksEnc_len E hE _ hpdvd iv hiv).1
    have hbdvd : (16 : Nat) ∣
        (cryptBlocksEnc E iv (P ++ padBytes P.length)).1.length := by
      rw [hblen]; exact hpdvd
    rw [cbcDecryptStream_spec D hD key iv _ hkey hiv hbdvd]
    have hfull := cryptBlocksDec_cryptBlocksEnc E D hE hED
      (P ++ padBytes P.length) hpdvd iv hiv
    simp only [decResult]
    rw [if_neg (by rw [hblen, hpadlen]; omega :
      ¬ (cryptBlocksEnc E iv (P ++ padBytes P.length)).1.length = 0)]
    simp only [hfull]
    have hpne : padBytes P.length ≠ [] := by
      unfold padBytes
      intro habs
      have hh := congrArg List.length habs
      simp only [List.length_replicate, List.length_nil] at hh
      omega
    have hlast : (P ++ padBytes P.length).getLastD 0 =
        16 - P.length % 16 := by
      rw [getLastD_append_of_ne_nil P (padBytes P.length) 0 hpne]
      unfold padBytes
      exact getLastD_replicate _ _ _ (by omega)
    rw [hlast]
    rw [if_neg (by omega : ¬ 16 < 16 - P.length % 16)]
    have harith : (P ++ padBytes P.length).length -
        (16 - P.length % 16) = P.length := by
      rw [hpadlen]; omega
    rw [harith, List.take_left]
  · intro sealF gcmOpen key nonce P hn hopen ct hct
    rw [show gcmEncryptStream sealF ⟨key, true⟩ nonce P =
      .ok (nonce ++ sealF nonce P) from rfl] at hct
    injection hct with hcteq
    subst hcteq
    have hlen : ¬ (nonce ++ sealF nonce P).length < 12 := by
      rw [List.length_append, hn]; omega
    have htake : (nonce ++ sealF nonce P).take 12 = nonce := by
      rw [← hn]; exact List.take_left _ _
    have hdrop : (nonce ++ sealF nonce P).drop 12 = sealF nonce P := by
      rw [← hn]; exact List.drop_left _ _
    unfold gcmDecryptStream
    rw [if_neg (by simp), if_neg hlen, htake, hdrop, hopen]

theorem C1_decrypt_encrypt_roundtrip_witness :
    cbcDecryptStream id ⟨List.replicate 32 0, List.replicate 16 0⟩
      (List.replicate 16 0 ++
        [72, 101, 108, 108, 111, 44, 32, 87, 97, 108, 114, 117, 115, 33,
          2, 2]) =
      some (.ok [72, 101, 108, 108, 111, 44, 32, 87, 97, 108, 114, 117,
        115, 33]) ∧
    gcmDecryptStream toyOpen ⟨List.replicate 32 0, true⟩
      (List.replicate 12 0 ++ toySeal (List.replicate 12 0) [1, 2, 3]) =
      some (.ok [1, 2, 3]) :=
  ⟨C1_decrypt_encrypt_roundtrip.1 id id (List.replicate 32 0)
      (List.replicate 16 0)
      [72, 101, 108, 108, 111, 44, 32, 87, 97, 108, 114, 117, 115, 33]
      (by decide) (by decide) (fun _ h => h) (fun _ h => h)
      (fun _ _ => rfl)
      (List.replicate 16 0 ++
        [72, 101, 108, 108, 111, 44, 32, 87, 97, 108, 114, 117, 115, 33,
          2, 2]) (by rfl),
   C1_decrypt_encrypt_roundtrip.2 toySeal toyOpen (List.replicate 32 0)
      (List.replicate 12 0) [1, 2, 3] (by decide) (by decide)
      (List.replicate 12 0 ++ toySeal (List.replicate 12 0) [1, 2, 3])
      (by rfl)⟩

/-- **C8**: in the sub-block accumulating state, a non-EOF source read
makes `cbcDecryptReader.Read` return the raw byte count with a nil error
while the destination buffer still holds the undecrypted ciphertext the
source read placed there — unlike the encrypt reader, which resets `n` to
0 — so `DecryptStream` writes raw ciphertext to the sink, and for a
source delivering one-byte reads the decrypted output differs from the
original plaintext ("Hello, Walrus!" here: the output is the first 15 raw
ciphertext bytes followed by the correctly decrypted plaintext). -/
theorem C8_subblock_decrypt_read_returns_raw :
    (∀ (D : Bytes → Bytes) (dataLen : Nat) (st : DecState) (c : Bytes),
      (st.buf ++ c).length < 16 →
      decReadChunk D dataLen st c = (c, ⟨st.buf ++ c, st.chain⟩)) ∧
    (∀ (E : Bytes → Bytes) (dataLen : Nat) (st : EncState) (c : Bytes),
      (st.buf ++ c).length < 16 →
      (encReadChunk E dataLen st c).1 = []) ∧
    cbcDecryptStreamChunked id ⟨List.replicate 32 0, List.replicate 16 0⟩
        (List.replicate 16 0)
        (chunksOf 1 [72, 101, 108, 108, 111, 44, 32, 87, 97, 108, 114,
          117, 115, 33, 2, 2]) =
      some (.ok ([72, 101, 108, 108, 111, 44, 32, 87, 97, 108, 114, 117,
        115, 33, 2] ++
        [72, 101, 108, 108, 111, 44, 32, 87, 97, 108, 114, 117, 115, 33])) ∧
    ([72, 101, 108, 108, 111, 44, 32, 87, 97, 108, 114, 117, 115, 33, 2] ++
        [72, 101, 108, 108, 111, 44, 32, 87, 97, 108, 114, 117, 115, 33]
      : Bytes) ≠
      [72, 101, 108, 108, 111, 44, 32, 87, 97, 108, 114, 117, 115, 33] := by
  refine ⟨?_, ?_, by rfl, by decide⟩
  · intro D dataLen st c hlt
    simp only [decReadChunk]
    rw [if_neg (by omega)]
  · intro E dataLen st c hlt
    simp only [encReadChunk]
    rw [if_neg (by omega)]

theorem C8_subblock_decrypt_read_returns_raw_witness :
    decReadChunk id 32768 ⟨[1, 2], List.replicate 16 0⟩ [3, 4] =
      ([3, 4], ⟨[1, 2] ++ [3, 4], List.replicate 16 0⟩) ∧
    (encReadChunk id 32768 ⟨[1, 2], List.replicate 16 0, 2⟩ [3, 4]).1 =
      [] :=
  ⟨C8_subblock_decrypt_read_returns_raw.1 id 32768
      ⟨[1, 2], List.replicate 16 0⟩ [3, 4] (by decide),
   C8_subblock_decrypt_read_returns_raw.2.1 id 32768
      ⟨[1, 2], List.replicate 16 0, 2⟩ [3, 4] (by decide)⟩

/-- **C9**: for every non-empty input whose last byte exceeds the input
length, `Unpad` panics on the negative slice bound instead of returning an
error; reaching such bytes in the final block at source exhaustion makes
the whole `DecryptStream` call panic (here: a ciphertext block whose
decryption ends in byte 17 > 16). -/
theorem C9_oversized_pad_count_panics :
    (∀ data : Bytes, data ≠ [] → data.length < data.getLastD 0 →
      pkcs7Unpad data = none) ∧
    cbcDecryptStream id ⟨List.replicate 32 0, List.replicate 16 0⟩
      (List.replicate 16 0 ++ (List.replicate 15 0 ++ [17])) = none := by
  refine ⟨?_, by rfl⟩
  intro data hne hgt
  have hlen : data.length ≠ 0 := by simpa using hne
  simp only [pkcs7Unpad]
  rw [if_neg hlen, if_pos (by omega)]

theorem C9_oversized_pad_count_panics_witness :
    pkcs7Unpad [9, 9, 200] = none ∧
    cbcDecryptStream id ⟨List.replicate 32 0, List.replicate 16 0⟩
      (List.replicate 16 0 ++ (List.replicate 15 0 ++ [17])) = none :=
  ⟨C9_oversized_pad_count_panics.1 [9, 9, 200] (by decide) (by decide),
   C9_oversized_pad_count_panics.2⟩

end WalrusGo
